import Mathlib

/-!
Verification development for the foyer_xml_trimmer repository
(src/foyer_xml_trimmer/foyer_xml_trimmer.py).

The program trims a force-field XML document down to the records used by one
typed molecular structure.  We give a shallow embedding of its core:

* Python dictionaries (XML attribute maps, the atom-type-to-class map) are
  association lists with unique keys, `AttribDict`; a lookup of a missing key
  (Python KeyError) is `Option.none` and aborts the computation it occurs in.
* the schema classifier `_identify_schema` and the helper `_switch_class_type`;
* the symmetry tables `sequences`, the streaming deduplication of bonded
  interactions and the candidate-record matching loop of `_topology_match`;
* the fixed-point atom-type/override resolution loop of `forcefield_trim`,
  and `forcefield_trim` itself.  The loop is embedded with an explicit bound
  (one iteration per override identifier that can still be discovered, plus
  one); we prove the bound is never exhausted, which is exactly the
  termination of the Python while loop.
* Python's `sorted` with the weight key is stable; we embed it by tagging each
  candidate record with its source index and sorting with the lexicographic
  order on (weight, index), which is the defining property of a stable sort.

External collaborators (the XML parser, the Parmed structure object, the
output writer) are modelled by their interfaces: a parsed document is a
record of attribute-map lists, a typed structure supplies its atom-type names
and the per-kind interaction tuples, and an unparsable file is `none`.
-/

/-- A Python dictionary with string keys and values, as an association list
with unique keys in insertion order. -/
abbrev AttribDict := List (String × String)

/-- Python `d[k]`: the value at key `k`, or `none` (KeyError) when absent. -/
def dictLookup (d : AttribDict) (k : String) : Option String :=
  match d with
  | [] => none
  | p :: rest => if p.1 = k then some p.2 else dictLookup rest k

/-- Python `k in d`. -/
def dictMem (d : AttribDict) (k : String) : Bool :=
  (dictLookup d k).isSome

/-- Python `d[k] = v`: update the value in place when the key exists,
otherwise append the new pair (insertion order). -/
def dictInsert (d : AttribDict) (k v : String) : AttribDict :=
  if dictMem d k = true then d.map (fun p => if p.1 = k then (k, v) else p)
  else d ++ [(k, v)]

/-- Python `d.update(d2)`: assign every pair of `d2` into `d` in order. -/
def dictUpdate (d : AttribDict) (d2 : AttribDict) : AttribDict :=
  d2.foldl (fun acc p => dictInsert acc p.1 p.2) d

/-- The keys of a dictionary, in insertion order. -/
def keysOf (d : AttribDict) : List String :=
  d.map Prod.fst

theorem dictMem_iff_keysOf {d : AttribDict} {k : String} :
    dictMem d k = true ↔ k ∈ keysOf d := by
  induction d with
  | nil => simp [dictMem, dictLookup, keysOf]
  | cons p rest ih =>
    by_cases h : p.1 = k
    · simp [dictMem, dictLookup, keysOf, h]
    · simpa [dictMem, dictLookup, keysOf, h, Ne.symm h] using ih

theorem keysOf_dictInsert_of_mem {d : AttribDict} {k : String}
    (h : dictMem d k = true) (v : String) : keysOf (dictInsert d k v) = keysOf d := by
  simp only [dictInsert, h, if_true]
  simp only [keysOf, List.map_map]
  apply List.map_congr_left
  intro p _
  by_cases hp : p.1 = k <;> simp [hp]

theorem keysOf_dictInsert_of_not_mem {d : AttribDict} {k : String}
    (h : dictMem d k = false) (v : String) :
    keysOf (dictInsert d k v) = keysOf d ++ [k] := by
  simp only [dictInsert, h]
  simp [keysOf]

theorem dictMem_dictInsert {d : AttribDict} {k q v : String} :
    dictMem (dictInsert d k v) q = true ↔ dictMem d q = true ∨ q = k := by
  by_cases h : dictMem d k
  · rw [dictMem_iff_keysOf, keysOf_dictInsert_of_mem h, ← dictMem_iff_keysOf]
    constructor
    · exact Or.inl
    · rintro (hq | rfl)
      · exact hq
      · exact h
  · rw [dictMem_iff_keysOf, keysOf_dictInsert_of_not_mem (by simpa using h),
      List.mem_append]
    rw [dictMem_iff_keysOf]
    simp [eq_comm]

theorem dictMem_dictUpdate {d : AttribDict} {d2 : AttribDict} {q : String} :
    dictMem (dictUpdate d d2) q = true ↔ dictMem d q = true ∨ q ∈ keysOf d2 := by
  induction d2 generalizing d with
  | nil => simp [dictUpdate, keysOf]
  | cons p rest ih =>
    rw [show dictUpdate d (p :: rest) = dictUpdate (dictInsert d p.1 p.2) rest from rfl,
      ih, dictMem_dictInsert]
    simp [keysOf]
    tauto

/-- Character-list containment used to embed Python's substring test
(the only uses are the literal 'class' against schema entries). -/
def charsStartWith : List Char → List Char → Bool
  | [], _ => true
  | _ :: _, [] => false
  | p :: ps, c :: cs => p = c && charsStartWith ps cs

/-- Scan helper for `strContains`: does `pat` start at any position of the
scanned list. -/
def strContainsGo (pat : List Char) : List Char → Bool
  | [] => pat.isEmpty
  | c :: cs => charsStartWith pat (c :: cs) || strContainsGo pat cs

/-- Python `pat in s` on strings (substring containment). -/
def strContains (s pat : String) : Bool :=
  strContainsGo pat.toList s.toList

/-- Embedding of `_identify_schema`'s loop body for positions `i, i+1, ...`
with `count` positions left: each position is a class constraint when the
record defines `class{i}`, otherwise a type constraint; each class constraint
adds 1 to the weight.  (Python: for i in range(1, nparams+1).) -/
def identifySchemaAux (attrib_dict : AttribDict) : Nat → Nat → List String × Nat
  | _, 0 => ([], 0)
  | i, count + 1 =>
    let rest := identifySchemaAux attrib_dict (i + 1) count
    if dictMem attrib_dict ("class" ++ toString i) = true then
      (("class" ++ toString i) :: rest.1, rest.2 + 1)
    else
      (("type" ++ toString i) :: rest.1, rest.2)

/-- Embedding of `_identify_schema(attrib_dict, nparams)`: the per-position
schema of a candidate record and its specificity weight (number of
class-constrained positions). -/
def identify_schema (attrib_dict : AttribDict) (nparams : Nat) : List String × Nat :=
  identifySchemaAux attrib_dict 1 nparams

/-- Embedding of `_switch_class_type(schema, atom_class, atom_type)`:
return the atom class when 'class' occurs in the schema entry, else the
atom type. -/
def switch_class_type (schema : String) (atom_class atom_type : String) : String :=
  if strContains schema "class" = true then atom_class else atom_type

theorem identifySchemaAux_length (a : AttribDict) :
    ∀ count i, (identifySchemaAux a i count).1.length = count := by
  intro count
  induction count with
  | zero => intro i; rfl
  | succ n ih =>
    intro i
    by_cases h : dictMem a ("class" ++ toString i) = true <;>
      simp [identifySchemaAux, h, ih]

theorem identify_schema_length (a : AttribDict) (n : Nat) :
    (identify_schema a n).1.length = n :=
  identifySchemaAux_length a n 1

/-- The four bonded-interaction kinds handled by `_topology_match`
(its `topo_type` argument). -/
inductive TopoType
  | Bond
  | Angle
  | Proper
  | Improper
deriving DecidableEq, Repr

/-- The equivalent atom-order sequences table of `_topology_match`:
bond/angle/proper are forward/reverse; impropers are defined about a central
first atom, any order of the other three atoms being equivalent. -/
def sequences : TopoType → List (List Nat)
  | TopoType.Bond => [[0, 1], [1, 0]]
  | TopoType.Angle => [[0, 1, 2], [2, 1, 0]]
  | TopoType.Proper => [[0, 1, 2, 3], [3, 2, 1, 0]]
  | TopoType.Improper =>
      [[0, 1, 2, 3], [0, 1, 3, 2], [0, 2, 1, 3], [0, 2, 3, 1], [0, 3, 1, 2], [0, 3, 2, 1]]

/-- The `n_params` argument `forcefield_trim` passes to `_topology_match`
for each kind. -/
def nParams : TopoType → Nat
  | TopoType.Bond => 2
  | TopoType.Angle => 3
  | TopoType.Proper => 4
  | TopoType.Improper => 4

/-- Python `[xs[i] for i in seq]` (list indexing; all uses are in range). -/
def applySeq (xs : List String) (seq : List Nat) : List String :=
  seq.map (fun i => xs.getD i "")

/-- Composition of two index sequences: applying `s1` then `s2` is applying
`compSeq s1 s2`. -/
def compSeq (s1 s2 : List Nat) : List Nat :=
  s2.map (fun j => s1.getD j 0)

theorem getD_map_of_lt {α β : Type} (f : α → β) (l : List α) (j : Nat)
    (h : j < l.length) (d : β) (d0 : α) : (l.map f).getD j d = f (l.getD j d0) := by
  induction l generalizing j with
  | nil => simp at h
  | cons x xs ih =>
    cases j with
    | zero => rfl
    | succ n =>
      simp only [List.map_cons, List.getD_cons_succ]
      exact ih n (by simpa using h)

theorem applySeq_length (xs : List String) (seq : List Nat) :
    (applySeq xs seq).length = seq.length := by
  simp [applySeq]

theorem applySeq_compSeq (xs : List String) (s1 s2 : List Nat)
    (h : ∀ j ∈ s2, j < s1.length) :
    applySeq (applySeq xs s1) s2 = applySeq xs (compSeq s1 s2) := by
  simp only [applySeq, compSeq, List.map_map]
  apply List.map_congr_left
  intro j hj
  simpa using getD_map_of_lt (fun i => xs.getD i "") s1 j (h j hj) "" 0

theorem applySeq_range (xs : List String) : applySeq xs (List.range xs.length) = xs := by
  apply List.ext_getElem
  · simp [applySeq]
  · intro i h1 h2
    simp only [applySeq, List.getElem_map, List.getElem_range]
    rw [List.getD_eq_getElem xs "" h2]

theorem seqs_length : ∀ tt : TopoType, ∀ s ∈ sequences tt, s.length = nParams tt := by
  intro tt
  cases tt <;> decide

theorem seqs_bounds : ∀ tt : TopoType, ∀ s ∈ sequences tt, ∀ i ∈ s, i < nParams tt := by
  intro tt
  cases tt <;> decide

theorem seqs_id : ∀ tt : TopoType, List.range (nParams tt) ∈ sequences tt := by
  intro tt
  cases tt <;> decide

theorem seqs_inv : ∀ tt : TopoType, ∀ s ∈ sequences tt,
    ∃ s2 ∈ sequences tt, compSeq s s2 = List.range (nParams tt) := by
  intro tt
  cases tt <;> decide

theorem seqs_comp : ∀ tt : TopoType, ∀ s1 ∈ sequences tt, ∀ s2 ∈ sequences tt,
    compSeq s1 s2 ∈ sequences tt := by
  intro tt
  cases tt <;> decide

/-- Equivalence of interaction tuples under a kind's symmetry table:
some permuted form of `x` is `y`. -/
def EquivUnder (S : List (List Nat)) (x y : List String) : Prop :=
  ∃ s ∈ S, applySeq x s = y

instance (S : List (List Nat)) (x y : List String) : Decidable (EquivUnder S x y) := by
  unfold EquivUnder
  infer_instance

theorem equivUnder_refl (tt : TopoType) (x : List String) (h : x.length = nParams tt) :
    EquivUnder (sequences tt) x x :=
  ⟨List.range (nParams tt), seqs_id tt, by rw [← h]; exact applySeq_range x⟩

theorem equivUnder_symm (tt : TopoType) {x y : List String}
    (hx : x.length = nParams tt) (h : EquivUnder (sequences tt) x y) :
    EquivUnder (sequences tt) y x := by
  obtain ⟨s, hs, rfl⟩ := h
  obtain ⟨s2, hs2, hcomp⟩ := seqs_inv tt s hs
  refine ⟨s2, hs2, ?_⟩
  rw [applySeq_compSeq x s s2 ?_, hcomp, ← hx, applySeq_range]
  intro j hj
  rw [seqs_length tt s hs]
  exact seqs_bounds tt s2 hs2 j hj

theorem equivUnder_trans (tt : TopoType) {x y z : List String}
    (h1 : EquivUnder (sequences tt) x y) (h2 : EquivUnder (sequences tt) y z) :
    EquivUnder (sequences tt) x z := by
  obtain ⟨s1, hs1, rfl⟩ := h1
  obtain ⟨s2, hs2, rfl⟩ := h2
  refine ⟨compSeq s1 s2, seqs_comp tt s1 hs1 s2 hs2, ?_⟩
  rw [← applySeq_compSeq x s1 s2]
  intro j hj
  rw [seqs_length tt s1 hs1]
  exact seqs_bounds tt s2 hs2 j hj

theorem equivUnder_length {S : List (List Nat)} {x y : List String}
    (hS : ∀ s ∈ S, s.length = n) (h : EquivUnder S x y) : y.length = n := by
  obtain ⟨s, hs, rfl⟩ := h
  rw [applySeq_length]
  exact hS s hs

/-- The uniqueness test of `_topology_match`'s deduplication: the new tuple is
unique when none of its permuted forms already appears in the accepted list. -/
def uniqueCheck (S : List (List Nat)) (acc : List (List String)) (x : List String) : Bool :=
  S.all (fun seq => !(acc.contains (applySeq x seq)))

/-- The streaming deduplication loop of `_topology_match` (building
`topo_by_type`): scan interactions in source order, append a tuple only when
no permuted form of it has already been accepted. -/
def dedupTopoAux (S : List (List Nat)) : List (List String) → List (List String) → List (List String)
  | acc, [] => acc
  | acc, x :: rest =>
    if uniqueCheck S acc x = true then dedupTopoAux S (acc ++ [x]) rest
    else dedupTopoAux S acc rest

/-- The deduplicated interaction list of one kind (`topo_by_type`). -/
def dedupTopo (tt : TopoType) (l : List (List String)) : List (List String) :=
  dedupTopoAux (sequences tt) [] l

theorem uniqueCheck_eq_true_iff {S : List (List Nat)} {acc : List (List String)}
    {x : List String} :
    uniqueCheck S acc x = true ↔ ∀ s ∈ S, applySeq x s ∉ acc := by
  simp [uniqueCheck]

theorem uniqueCheck_eq_false_iff {S : List (List Nat)} {acc : List (List String)}
    {x : List String} :
    uniqueCheck S acc x = false ↔ ∃ s ∈ S, applySeq x s ∈ acc := by
  rw [← Bool.not_eq_true, uniqueCheck_eq_true_iff]
  push_neg
  rfl

theorem dedupTopoAux_extend (S : List (List Nat)) :
    ∀ l acc, ∃ s, dedupTopoAux S acc l = acc ++ s ∧ s.Sublist l := by
  intro l
  induction l with
  | nil => exact fun acc => ⟨[], by simp [dedupTopoAux]⟩
  | cons x rest ih =>
    intro acc
    by_cases h : uniqueCheck S acc x = true
    · obtain ⟨s, hs, hsub⟩ := ih (acc ++ [x])
      exact ⟨x :: s, by simp [dedupTopoAux, h, hs], hsub.cons₂ x⟩
    · obtain ⟨s, hs, hsub⟩ := ih acc
      exact ⟨s, by simp [dedupTopoAux, h, hs], hsub.cons x⟩

theorem dedupTopoAux_mem_of_mem_acc {S : List (List Nat)} {l acc : List (List String)}
    {a : List String} (ha : a ∈ acc) : a ∈ dedupTopoAux S acc l := by
  obtain ⟨s, hs, -⟩ := dedupTopoAux_extend S l acc
  rw [hs]
  exact List.mem_append_left s ha

theorem dedupTopoAux_pairwise (S : List (List Nat)) :
    ∀ l acc, List.Pairwise (fun a b => ∀ s ∈ S, applySeq b s ≠ a) acc →
    List.Pairwise (fun a b => ∀ s ∈ S, applySeq b s ≠ a) (dedupTopoAux S acc l) := by
  intro l
  induction l with
  | nil => exact fun acc h => h
  | cons x rest ih =>
    intro acc hacc
    by_cases h : uniqueCheck S acc x = true
    · simp only [dedupTopoAux, h, if_true]
      apply ih
      rw [List.pairwise_append]
      refine ⟨hacc, List.pairwise_singleton _ _, ?_⟩
      intro a ha b hb s hsS
      rw [List.mem_singleton] at hb
      subst hb
      exact fun he => (uniqueCheck_eq_true_iff.mp h s hsS) (he ▸ ha)
    · simp only [dedupTopoAux, h, if_false]
      exact ih acc hacc

theorem dedupTopoAux_complete (S : List (List Nat)) :
    ∀ l acc, (∀ x ∈ l, EquivUnder S x x) →
    ∀ x ∈ l, ∃ y ∈ dedupTopoAux S acc l, EquivUnder S x y := by
  intro l
  induction l with
  | nil => intro acc _ x hx; exact absurd hx (List.not_mem_nil x)
  | cons z rest ih =>
    intro acc hrefl x hx
    by_cases h : uniqueCheck S acc z = true
    · simp only [dedupTopoAux, h, if_true]
      rcases List.mem_cons.mp hx with rfl | hx'
      · exact ⟨x, dedupTopoAux_mem_of_mem_acc (List.mem_append_right acc (List.mem_singleton_self x)),
          hrefl x (List.mem_cons_self x rest)⟩
      · exact ih (acc ++ [z]) (fun y hy => hrefl y (List.mem_cons_of_mem z hy)) x hx'
    · simp only [dedupTopoAux, h, if_false]
      rcases List.mem_cons.mp hx with rfl | hx'
      · obtain ⟨s, hsS, hmem⟩ := uniqueCheck_eq_false_iff.mp (by simpa using h)
        exact ⟨applySeq x s, dedupTopoAux_mem_of_mem_acc hmem, s, hsS, rfl⟩
      · exact ih acc (fun y hy => hrefl y (List.mem_cons_of_mem z hy)) x hx'

theorem dedupTopoAux_first (S : List (List Nat)) :
    ∀ l1 acc y l2, (∀ a ∈ acc, ∀ s ∈ S, applySeq y s ≠ a) →
    (∀ x ∈ l1, ¬ EquivUnder S y x) →
    y ∈ dedupTopoAux S acc (l1 ++ y :: l2) := by
  intro l1
  induction l1 with
  | nil =>
    intro acc y l2 hacc _
    have h : uniqueCheck S acc y = true :=
      uniqueCheck_eq_true_iff.mpr (fun s hs hm => hacc _ hm s hs rfl)
    simp only [List.nil_append, dedupTopoAux, h, if_true]
    exact dedupTopoAux_mem_of_mem_acc (List.mem_append_right acc (List.mem_singleton_self y))
  | cons x l1 ih =>
    intro acc y l2 hacc hl1
    simp only [List.cons_append, dedupTopoAux]
    by_cases h : uniqueCheck S acc x = true
    · simp only [h, if_true]
      apply ih
      · intro a ha s hs
        rcases List.mem_append.mp ha with ha' | ha'
        · exact hacc a ha' s hs
        · rw [List.mem_singleton] at ha'
          rw [ha']
          intro he
          exact hl1 x (List.mem_cons_self x l1) ⟨s, hs, he⟩
      · exact fun z hz => hl1 z (List.mem_cons_of_mem x hz)
    · simp only [h, if_false]
      exact ih acc y l2 hacc (fun z hz => hl1 z (List.mem_cons_of_mem x hz))

theorem dedupTopoAux_idem (S : List (List Nat)) :
    ∀ out acc, List.Pairwise (fun a b => ∀ s ∈ S, applySeq b s ≠ a) (acc ++ out) →
    dedupTopoAux S acc out = acc ++ out := by
  intro out
  induction out with
  | nil => intro acc _; simp [dedupTopoAux]
  | cons x rest ih =>
    intro acc hp
    have hu : uniqueCheck S acc x = true := by
      rw [uniqueCheck_eq_true_iff]
      intro s hs hmem
      have := (List.pairwise_append.mp hp).2.2 _ hmem x (List.mem_cons_self x rest)
      exact this s hs rfl
    simp only [dedupTopoAux, hu, if_true]
    rw [ih (acc ++ [x]) (by simpa using hp), List.append_assoc]
    rfl

theorem forall2_mem_left {α β : Type} {E : α → β → Prop} :
    ∀ {l : List α} {l' : List β}, List.Forall₂ E l l' → ∀ a ∈ l, ∃ b ∈ l', E a b := by
  intro l l' h
  induction h with
  | nil => intro a ha; exact absurd ha (List.not_mem_nil a)
  | cons hxy _ ih =>
    intro a ha
    rcases List.mem_cons.mp ha with rfl | ha'
    · exact ⟨_, List.mem_cons_self _ _, hxy⟩
    · obtain ⟨b, hb, hab⟩ := ih a ha'
      exact ⟨b, List.mem_cons_of_mem _ hb, hab⟩

theorem forall2_mem_right {α β : Type} {E : α → β → Prop} :
    ∀ {l : List α} {l' : List β}, List.Forall₂ E l l' → ∀ b ∈ l', ∃ a ∈ l, E a b := by
  intro l l' h
  induction h with
  | nil => intro b hb; exact absurd hb (List.not_mem_nil b)
  | cons hxy _ ih =>
    intro b hb
    rcases List.mem_cons.mp hb with rfl | hb'
    · exact ⟨_, List.mem_cons_self _ _, hxy⟩
    · obtain ⟨a, ha, hab⟩ := ih b hb'
      exact ⟨a, List.mem_cons_of_mem _ ha, hab⟩

theorem dedupTopoAux_forall2 (tt : TopoType) :
    ∀ {l l' : List (List String)},
    List.Forall₂ (EquivUnder (sequences tt)) l l' →
    ∀ acc acc', (∀ x ∈ l, x.length = nParams tt) →
    (∀ a ∈ acc, a.length = nParams tt) →
    List.Forall₂ (EquivUnder (sequences tt)) acc acc' →
    List.Forall₂ (EquivUnder (sequences tt)) (dedupTopoAux (sequences tt) acc l)
      (dedupTopoAux (sequences tt) acc' l') := by
  intro l l' hll
  induction hll with
  | nil => intro acc acc' _ _ hacc; exact hacc
  | @cons x x' rest rest' hxx hrest ih =>
    intro acc acc' hlen hlenacc hacc
    have hxlen : x.length = nParams tt := hlen x (List.mem_cons_self x rest)
    have hkey : uniqueCheck (sequences tt) acc x = true ↔
        uniqueCheck (sequences tt) acc' x' = true := by
      rw [uniqueCheck_eq_true_iff, uniqueCheck_eq_true_iff]
      constructor
      · intro h s hs hmem
        obtain ⟨a, ha, hax⟩ := forall2_mem_right hacc _ hmem
        have h1 : EquivUnder (sequences tt) x a :=
          equivUnder_trans tt (equivUnder_trans tt hxx ⟨s, hs, rfl⟩)
            (equivUnder_symm tt (hlenacc a ha) hax)
        obtain ⟨s0, hs0, he0⟩ := h1
        exact h s0 hs0 (he0 ▸ ha)
      · intro h s hs hmem
        obtain ⟨a', ha', haa⟩ := forall2_mem_left hacc _ hmem
        have h1 : EquivUnder (sequences tt) x' a' :=
          equivUnder_trans tt (equivUnder_trans tt
            (equivUnder_symm tt hxlen hxx) ⟨s, hs, rfl⟩) haa
        obtain ⟨s0, hs0, he0⟩ := h1
        exact h s0 hs0 (he0 ▸ ha')
    have hlenrest : ∀ z ∈ rest, z.length = nParams tt :=
      fun z hz => hlen z (List.mem_cons_of_mem x hz)
    by_cases h : uniqueCheck (sequences tt) acc x = true
    · have h' : uniqueCheck (sequences tt) acc' x' = true := hkey.mp h
      simp only [dedupTopoAux, h, h', if_true]
      apply ih (acc ++ [x]) (acc' ++ [x']) hlenrest
      · intro a ha
        rcases List.mem_append.mp ha with ha' | ha'
        · exact hlenacc a ha'
        · rw [List.mem_singleton] at ha'
          rw [ha']
          exact hxlen
      · exact List.rel_append hacc (List.forall₂_cons.mpr ⟨hxx, List.Forall₂.nil⟩)
    · have h' : ¬ uniqueCheck (sequences tt) acc' x' = true := fun hc => h (hkey.mpr hc)
      simp only [dedupTopoAux, h, h', if_false]
      exact ih acc acc' hlenrest hlenacc hacc

/-- A classified candidate record of `_topology_match` (its `topo_dict`):
the inferred schema, the specificity weight, and the raw attribute map. -/
structure TopoEntry where
  schema : List String
  weight : Nat
  attrib : AttribDict
deriving DecidableEq, Repr

/-- Classification of the candidate records of one interaction kind
(`topo_entry_temp` of `_topology_match`). -/
def classifyEntries (xmlRecords : List AttribDict) (n_params : Nat) : List TopoEntry :=
  xmlRecords.map (fun a =>
    { schema := (identify_schema a n_params).1
      weight := (identify_schema a n_params).2
      attrib := a })

/-- Tag list elements with their position, starting at `i`. -/
def enumerateFrom {α : Type} : Nat → List α → List (Nat × α)
  | _, [] => []
  | i, x :: xs => (i, x) :: enumerateFrom (i + 1) xs

/-- Tag list elements with their position (source-document order). -/
def enumerate {α : Type} (l : List α) : List (Nat × α) :=
  enumerateFrom 0 l

/-- The ordering realised by Python's stable `sorted(..., key=weight)` on
index-tagged records: ascending weight, ties broken by source index. -/
def lexLe (a b : Nat × TopoEntry) : Prop :=
  a.2.weight < b.2.weight ∨ (a.2.weight = b.2.weight ∧ a.1 ≤ b.1)

instance : DecidableRel lexLe := fun a b => by
  unfold lexLe
  infer_instance

instance : IsTotal (Nat × TopoEntry) lexLe := by
  constructor
  intro a b
  rcases Nat.lt_trichotomy a.2.weight b.2.weight with h | h | h
  · exact Or.inl (Or.inl h)
  · rcases Nat.le_total a.1 b.1 with h2 | h2
    · exact Or.inl (Or.inr ⟨h, h2⟩)
    · exact Or.inr (Or.inr ⟨h.symm, h2⟩)
  · exact Or.inr (Or.inl h)

instance : IsTrans (Nat × TopoEntry) lexLe := by
  constructor
  rintro a b c (hab | ⟨hab, hab2⟩) (hbc | ⟨hbc, hbc2⟩)
  · exact Or.inl (hab.trans hbc)
  · exact Or.inl (hbc ▸ hab)
  · exact Or.inl (hab ▸ hbc)
  · exact Or.inr ⟨hab.trans hbc, hab2.trans hbc2⟩

/-- Embedding of `sorted(topo_entry_temp, key=lambda d: d['weight'])`
(a stable sort): tag entries with their source index and sort by the
lexicographic (weight, index) order. -/
def sortEntriesTagged (entries : List TopoEntry) : List (Nat × TopoEntry) :=
  List.insertionSort lexLe (enumerate entries)

/-- The inner position loop of `_topology_match`'s match test for one
candidate record and one permuted interaction tuple (`seq_test`, positions
`i, i+1, ...`): the record's value at each schema position is compared with
the interaction's class (class-constrained position) or type; every position
is evaluated, so a missing record attribute or an unknown atom type is a
KeyError (`none`) even after a mismatch.  Returns the conjunction of the
per-position matches and the `collection` list of the record's values. -/
def matchAux (atd topo : AttribDict) (schema : List String) :
    List String → Nat → Option (Bool × List String)
  | [], _ => some (true, [])
  | seq :: rest, i =>
    match schema[i]? with
    | none => none
    | some sch =>
      match dictLookup topo sch, dictLookup atd seq with
      | some v, some cls =>
        match matchAux atd topo schema rest (i + 1) with
        | none => none
        | some (m, collection) =>
            some ((v == switch_class_type sch cls seq) && m, v :: collection)
      | _, _ => none

/-- The sequence loop of `_topology_match` for one candidate record: try the
kind's equivalent atom orders in turn; after a full match (`all(match)`)
later sequences are skipped (the `not_matched` guard).  `some none` means no
sequence matched; `none` is a propagated KeyError. -/
def tryEntrySeqs (atd : AttribDict) (entry : TopoEntry) (topo_element : List String) :
    List (List Nat) → Option (Option (List String))
  | [] => some none
  | sequence :: rest =>
    match matchAux atd entry.attrib entry.schema (applySeq topo_element sequence) 0 with
    | none => none
    | some (m, collection) =>
      if m = true then some (some collection)
      else tryEntrySeqs atd entry topo_element rest

/-- The candidate-record loop of `_topology_match` for one interaction:
records are tried in sorted order and the first full match stops the scan
(the `not_matched` guard skips every later record and sequence). -/
def tryEntries (atd : AttribDict) (seqs : List (List Nat)) (topo_element : List String) :
    List (Nat × TopoEntry) → Option (Option ((Nat × TopoEntry) × List String))
  | [] => some none
  | p :: rest =>
    match tryEntrySeqs atd p.2 topo_element seqs with
    | none => none
    | some none => tryEntries atd seqs topo_element rest
    | some (some collection) => some (some (p, collection))

/-- One iteration of `_topology_match`'s outer loop: the state is
(`unique_collection`, the list of records appended to the output section).
A matched record is emitted only when its `collection` of constrained values
is not already in `unique_collection`; an unmatched interaction is dropped.
-/
def processInteraction (atd : AttribDict) (seqs : List (List Nat))
    (entries : List (Nat × TopoEntry)) (topo_element : List String)
    (st : List (List String) × List AttribDict) :
    Option (List (List String) × List AttribDict) :=
  match tryEntries atd seqs topo_element entries with
  | none => none
  | some none => some st
  | some (some (p, collection)) =>
    if st.1.contains collection = true then some st
    else some (st.1 ++ [collection], st.2 ++ [p.2.attrib])

/-- The outer interaction loop of `_topology_match` (lines 128-155). -/
def matchAll (atd : AttribDict) (seqs : List (List Nat))
    (entries : List (Nat × TopoEntry)) :
    List (List String) → List (List String) × List AttribDict →
    Option (List (List String) × List AttribDict)
  | [], st => some st
  | x :: rest, st =>
    match processInteraction atd seqs entries x st with
    | none => none
    | some st2 => matchAll atd seqs entries rest st2

/-- Embedding of `_topology_match(atom_type_dict, typed_topo, xml_root,
blank_root, topo_type, n_params)`: the interaction tuples of the structure
for this kind are deduplicated, the kind's candidate records are classified
and stably sorted by weight, and the match loop emits the selected records
in first-match order.  The returned list is what is appended to the kind's
output section; `none` is a propagated KeyError. -/
def topology_match (atom_type_dict : AttribDict) (typed_topo : List (List String))
    (xmlRecords : List AttribDict) (topo_type : TopoType) (n_params : Nat) :
    Option (List AttribDict) :=
  match matchAll atom_type_dict (sequences topo_type)
      (sortEntriesTagged (classifyEntries xmlRecords n_params))
      (dedupTopo topo_type typed_topo) ([], []) with
  | none => none
  | some st => some st.2

/-- A candidate record can match an interaction tuple under some atom order
of the kind's table. -/
def entryMatches (atd : AttribDict) (seqs : List (List Nat)) (entry : TopoEntry)
    (topo_element : List String) : Prop :=
  ∃ s ∈ seqs, ∃ collection,
    matchAux atd entry.attrib entry.schema (applySeq topo_element s) 0 = some (true, collection)

theorem tryEntrySeqs_some_none {atd : AttribDict} {entry : TopoEntry}
    {x : List String} :
    ∀ {seqs : List (List Nat)}, tryEntrySeqs atd entry x seqs = some none →
    ∀ s ∈ seqs, ∃ c, matchAux atd entry.attrib entry.schema (applySeq x s) 0 = some (false, c) := by
  intro seqs
  induction seqs with
  | nil => intro _ s hs; exact absurd hs (List.not_mem_nil s)
  | cons s0 rest ih =>
    intro h s hs
    rcases hm : matchAux atd entry.attrib entry.schema (applySeq x s0) 0 with - | ⟨m, c0⟩
    · simp [tryEntrySeqs, hm] at h
    · rcases List.mem_cons.mp hs with rfl | hs'
      · cases m with
        | true => simp [tryEntrySeqs, hm] at h
        | false => exact ⟨c0, hm⟩
      · cases m with
        | true => simp [tryEntrySeqs, hm] at h
        | false =>
          simp only [tryEntrySeqs, hm] at h
          exact ih (by simpa using h) s hs'

theorem tryEntrySeqs_some_some {atd : AttribDict} {entry : TopoEntry}
    {x : List String} {collection : List String} :
    ∀ {seqs : List (List Nat)}, tryEntrySeqs atd entry x seqs = some (some collection) →
    ∃ s ∈ seqs, matchAux atd entry.attrib entry.schema (applySeq x s) 0 = some (true, collection) := by
  intro seqs
  induction seqs with
  | nil => intro h; simp [tryEntrySeqs] at h
  | cons s0 rest ih =>
    intro h
    rcases hm : matchAux atd entry.attrib entry.schema (applySeq x s0) 0 with - | ⟨m, c0⟩
    · simp [tryEntrySeqs, hm] at h
    · cases m with
      | true =>
        simp only [tryEntrySeqs, hm, if_pos rfl] at h
        obtain rfl : c0 = collection := by simpa using h
        exact ⟨s0, List.mem_cons_self s0 rest, hm⟩
      | false =>
        simp only [tryEntrySeqs, hm] at h
        obtain ⟨s, hs, hmm⟩ := ih (by simpa using h)
        exact ⟨s, List.mem_cons_of_mem s0 hs, hmm⟩

theorem tryEntrySeqs_not_matches {atd : AttribDict} {entry : TopoEntry}
    {x : List String} {seqs : List (List Nat)}
    (h : tryEntrySeqs atd entry x seqs = some none) :
    ¬ entryMatches atd seqs entry x := by
  rintro ⟨s, hs, c, hc⟩
  obtain ⟨c2, hc2⟩ := tryEntrySeqs_some_none h s hs
  rw [hc] at hc2
  simp at hc2

theorem tryEntries_decomp {atd : AttribDict} {seqs : List (List Nat)}
    {x : List String} {p : Nat × TopoEntry} {collection : List String} :
    ∀ {entries : List (Nat × TopoEntry)},
    tryEntries atd seqs x entries = some (some (p, collection)) →
    ∃ l1 l2, entries = l1 ++ p :: l2 ∧
      (∀ q ∈ l1, tryEntrySeqs atd q.2 x seqs = some none) ∧
      tryEntrySeqs atd p.2 x seqs = some (some collection) := by
  intro entries
  induction entries with
  | nil => intro h; simp [tryEntries] at h
  | cons q rest ih =>
    intro h
    rcases hq : tryEntrySeqs atd q.2 x seqs with - | ⟨-⟩ | ⟨c0⟩
    · simp [tryEntries, hq] at h
    · simp only [tryEntries, hq] at h
      obtain ⟨l1, l2, heq, hl1, hp⟩ := ih h
      refine ⟨q :: l1, l2, by rw [heq]; rfl, ?_, hp⟩
      intro r hr
      rcases List.mem_cons.mp hr with rfl | hr'
      · exact hq
      · exact hl1 r hr'
    · simp only [tryEntries, hq, Option.some.injEq] at h
      obtain ⟨rfl, rfl⟩ : q = p ∧ c0 = collection := Prod.mk.inj h
      exact ⟨[], rest, rfl, fun r hr => absurd hr (List.not_mem_nil r), hq⟩

theorem matchAux_some_coll {atd topo : AttribDict} {schema : List String} :
    ∀ {xs : List String} {i : Nat} {m : Bool} {coll : List String},
    matchAux atd topo schema xs i = some (m, coll) →
    coll.map some = ((schema.drop i).take xs.length).map (dictLookup topo) := by
  intro xs
  induction xs with
  | nil =>
    intro i m coll h
    obtain ⟨rfl, rfl⟩ := Prod.mk.inj (Option.some.inj h).symm
    simp
  | cons y rest ih =>
    intro i m coll h
    rcases hsch : schema[i]? with - | sch
    · simp [matchAux, hsch] at h
    rcases hv : dictLookup topo sch with - | v
    · simp [matchAux, hsch, hv] at h
    rcases hcls : dictLookup atd y with - | cls
    · simp [matchAux, hsch, hv, hcls] at h
    rcases hrec : matchAux atd topo schema rest (i + 1) with - | mc
    · simp [matchAux, hsch, hv, hcls, hrec] at h
    obtain ⟨m2, coll2⟩ := mc
    simp only [matchAux, hsch, hv, hcls, hrec] at h
    obtain ⟨-, rfl⟩ := Prod.mk.inj (Option.some.inj h).symm
    have hi : i < schema.length := (List.getElem?_eq_some.mp hsch).1
    have hsi : schema[i] = sch := (List.getElem?_eq_some.mp hsch).2
    rw [List.drop_eq_getElem_cons hi, hsi]
    simp only [List.length_cons, List.take_succ_cons, List.map_cons]
    rw [ih hrec, hv]

theorem matchAux_isSome_iff {atd topo : AttribDict} {schema : List String} :
    ∀ {xs : List String} {i : Nat},
    (matchAux atd topo schema xs i).isSome = true ↔
      ((∀ j, j < xs.length →
        ∃ sch, schema[i + j]? = some sch ∧ (dictLookup topo sch).isSome = true) ∧
       (∀ y ∈ xs, (dictLookup atd y).isSome = true)) := by
  intro xs
  induction xs with
  | nil =>
    intro i
    simp [matchAux]
  | cons y rest ih =>
    intro i
    constructor
    · intro h
      rcases hsch : schema[i]? with - | sch
      · simp [matchAux, hsch] at h
      rcases hv : dictLookup topo sch with - | v
      · simp [matchAux, hsch, hv] at h
      rcases hcls : dictLookup atd y with - | cls
      · simp [matchAux, hsch, hv, hcls] at h
      rcases hrec : matchAux atd topo schema rest (i + 1) with - | mc
      · simp [matchAux, hsch, hv, hcls, hrec] at h
      have hr : (matchAux atd topo schema rest (i + 1)).isSome = true := by
        rw [hrec]; rfl
      obtain ⟨h1, h2⟩ := ih.mp hr
      constructor
      · intro j hj
        cases j with
        | zero => exact ⟨sch, by simpa using hsch, by rw [hv]; rfl⟩
        | succ j2 =>
          have h3 := h1 j2 (by simp only [List.length_cons] at hj; omega)
          rw [show i + (j2 + 1) = i + 1 + j2 by omega]
          exact h3
      · intro z hz
        rcases List.mem_cons.mp hz with rfl | hz'
        · rw [hcls]; rfl
        · exact h2 z hz'
    · rintro ⟨h1, h2⟩
      obtain ⟨sch, hsch, hvs⟩ := h1 0 (Nat.succ_pos rest.length)
      rw [Nat.add_zero] at hsch
      obtain ⟨v, hv⟩ := Option.isSome_iff_exists.mp hvs
      obtain ⟨cls, hcls⟩ := Option.isSome_iff_exists.mp
        (h2 y (List.mem_cons_self y rest))
      have hr : (matchAux atd topo schema rest (i + 1)).isSome = true := by
        apply ih.mpr
        refine ⟨fun j hj => ?_, fun z hz => h2 z (List.mem_cons_of_mem y hz)⟩
        have h3 := h1 (j + 1) (by simp only [List.length_cons]; omega)
        rw [show i + 1 + j = i + (j + 1) by omega]
        exact h3
      obtain ⟨mc, hrec⟩ := Option.isSome_iff_exists.mp hr
      obtain ⟨m2, coll2⟩ := mc
      simp [matchAux, hsch, hv, hcls, hrec]

theorem matchAux_isSome_of_perm {atd topo : AttribDict} {schema : List String}
    {xs ys : List String} (hperm : List.Perm xs ys)
    (h : (matchAux atd topo schema xs 0).isSome = true) :
    (matchAux atd topo schema ys 0).isSome = true := by
  rw [matchAux_isSome_iff] at h ⊢
  obtain ⟨h1, h2⟩ := h
  refine ⟨?_, fun y hy => h2 y (hperm.mem_iff.mpr hy)⟩
  intro j hj
  exact h1 j (by rwa [hperm.length_eq])

/-- Helper for `splitComma`: split a character list at commas.
Python `''.split(',')` is `['']`, so the empty list yields one empty field. -/
def splitCommaChars : List Char → List (List Char)
  | [] => [[]]
  | c :: cs =>
    let r := splitCommaChars cs
    if c = ',' then [] :: r
    else
      match r with
      | [] => [[c]]
      | h :: t => (c :: h) :: t

/-- Python `s.split(',')`. -/
def splitComma (s : String) : List String :=
  (splitCommaChars s.toList).map List.asString

/-- All identifiers occurring in any record's `overrides` attribute (an upper
bound for the identifiers the resolution loop can still discover). -/
def overrideUniverse (xmlTypes : List AttribDict) : List String :=
  xmlTypes.foldr
    (fun rec acc =>
      (match dictLookup rec "overrides" with
       | some ovs => splitComma ovs
       | none => []) ++ acc) []

/-- The inner override collection of the resolution loop: for each referenced
identifier not in the atom-type map, record it (value '') in the pass's
overrides dictionary. -/
def addOverrides (atd : AttribDict) (ovd : AttribDict) (ids : List String) : AttribDict :=
  ids.foldl (fun acc ov => if dictMem atd ov = true then acc else dictInsert acc ov "") ovd

/-- One `Type` record scanned against one atom type inside a resolution pass:
when the record's name matches, assign the class and collect unknown override
identifiers.  A record without a `name`, or a matching record without a
`class`, is a KeyError. -/
def passOneRecord (atom_type : String) (st : AttribDict × AttribDict)
    (record : AttribDict) : Option (AttribDict × AttribDict) :=
  match dictLookup record "name" with
  | none => none
  | some nm =>
    if nm = atom_type then
      match dictLookup record "class" with
      | none => none
      | some cls =>
        let atd := dictInsert st.1 atom_type cls
        match dictLookup record "overrides" with
        | none => some (atd, st.2)
        | some ovs => some (atd, addOverrides atd st.2 (splitComma ovs))
    else some st

/-- Scan all `Type` records for one atom type (the inner `for atom in
xml_root.iter('Type')` loop). -/
def passRecords (atom_type : String) (records : List AttribDict) :
    AttribDict × AttribDict → Option (AttribDict × AttribDict) :=
  fun st =>
    match records with
    | [] => some st
    | record :: rest =>
      match passOneRecord atom_type st record with
      | none => none
      | some st2 => passRecords atom_type rest st2

/-- Iterate one resolution pass over the given atom-type keys
(the outer `for atom_type in atom_type_dict` loop). -/
def passKeys (xmlTypes : List AttribDict) : List String →
    AttribDict × AttribDict → Option (AttribDict × AttribDict)
  | [], st => some st
  | k :: rest, st =>
    match passRecords k xmlTypes st with
    | none => none
    | some st2 => passKeys xmlTypes rest st2

/-- One pass of the while loop of `forcefield_trim` (lines 190-205): scan
every current key against every `Type` record, producing the value-updated
atom-type map and the dictionary of newly discovered override identifiers. -/
def overridePass (xmlTypes : List AttribDict) (atd : AttribDict) :
    Option (AttribDict × AttribDict) :=
  passKeys xmlTypes (keysOf atd) (atd, [])

/-- Bound for the resolution loop: the number of occurrences of override
identifiers not yet present in the map.  Each pass that continues the loop
adds at least one such identifier as a key, so this strictly decreases. -/
def resolveMeasure (xmlTypes : List AttribDict) (atd : AttribDict) : Nat :=
  ((overrideUniverse xmlTypes).filter (fun k => !(dictMem atd k))).length

/-- The while loop of `forcefield_trim` (lines 189-211) with an explicit
iteration bound: run a pass, merge the discovered overrides into the map, and
repeat while the pass discovered anything, appending one informational note
per discovered identifier.  `none` on the bound reaching zero never happens
when started from `resolveLoop` (proved below); `none` from a pass is a
KeyError. -/
def resolveLoopAux (xmlTypes : List AttribDict) :
    Nat → AttribDict → List String → Option (AttribDict × List String)
  | 0, _, _ => none
  | fuel + 1, atd, notes =>
    match overridePass xmlTypes atd with
    | none => none
    | some (atd2, ovd) =>
      let atd3 := dictUpdate atd2 ovd
      if ovd = [] then some (atd3, notes)
      else resolveLoopAux xmlTypes fuel atd3 (notes ++ keysOf ovd)

/-- The full resolution loop (`iterate = True; while iterate: ...`),
returning the final atom-type-to-class map and the list of identifiers
reported in informational notes, in report order. -/
def resolveLoop (xmlTypes : List AttribDict) (atd : AttribDict) (notes : List String) :
    Option (AttribDict × List String) :=
  resolveLoopAux xmlTypes (resolveMeasure xmlTypes atd + 1) atd notes

theorem dictMem_eq_of_keysOf_eq {d d2 : AttribDict} (h : keysOf d = keysOf d2)
    (q : String) : dictMem d q = dictMem d2 q := by
  rw [Bool.eq_iff_iff, dictMem_iff_keysOf, dictMem_iff_keysOf, h]

theorem keysOf_mem_dictInsert {d : AttribDict} {k q v : String} :
    q ∈ keysOf (dictInsert d k v) ↔ q ∈ keysOf d ∨ q = k := by
  rw [← dictMem_iff_keysOf, dictMem_dictInsert, dictMem_iff_keysOf]

theorem dictInsert_length (d : AttribDict) (k v : String) :
    d.length ≤ (dictInsert d k v).length := by
  by_cases h : dictMem d k = true <;> simp [dictInsert, h]

theorem dictInsert_ne_nil (d : AttribDict) (k v : String) : dictInsert d k v ≠ [] := by
  by_cases h : dictMem d k = true
  · cases d with
    | nil => simp [dictMem, dictLookup] at h
    | cons p rest => simp [dictInsert, h]
  · simp [dictInsert, h]

theorem addOverrides_length (atd : AttribDict) :
    ∀ ids ovd, ovd.length ≤ (addOverrides atd ovd ids).length := by
  intro ids
  induction ids with
  | nil => intro ovd; exact Nat.le_refl _
  | cons ov ids ih =>
    intro ovd
    by_cases h : dictMem atd ov = true
    · simpa [addOverrides, h] using ih ovd
    · refine (dictInsert_length ovd ov "").trans ?_
      simpa [addOverrides, h] using ih (dictInsert ovd ov "")

theorem addOverrides_eq_nil (atd : AttribDict) :
    ∀ ids ovd, addOverrides atd ovd ids = [] →
    ovd = [] ∧ ∀ ov ∈ ids, dictMem atd ov = true := by
  intro ids
  induction ids with
  | nil =>
    intro ovd h
    exact ⟨h, fun ov hov => absurd hov (List.not_mem_nil ov)⟩
  | cons ov ids ih =>
    intro ovd h
    by_cases hm : dictMem atd ov = true
    · simp only [addOverrides, List.foldl_cons, hm, if_true] at h
      obtain ⟨h1, h2⟩ := ih ovd h
      refine ⟨h1, fun z hz => ?_⟩
      rcases List.mem_cons.mp hz with rfl | hz'
      · exact hm
      · exact h2 z hz'
    · simp only [addOverrides, List.foldl_cons, hm, if_false] at h
      obtain ⟨h1, -⟩ := ih (dictInsert ovd ov "") h
      exact absurd h1 (dictInsert_ne_nil ovd ov "")

theorem addOverrides_keys (atd : AttribDict) :
    ∀ ids ovd, ∀ q ∈ keysOf (addOverrides atd ovd ids),
    q ∈ keysOf ovd ∨ (q ∈ ids ∧ dictMem atd q = false) := by
  intro ids
  induction ids with
  | nil => intro ovd q hq; exact Or.inl hq
  | cons ov ids ih =>
    intro ovd q hq
    by_cases hm : dictMem atd ov = true
    · simp only [addOverrides, List.foldl_cons, hm, if_true] at hq
      rcases ih ovd q hq with h | ⟨h1, h2⟩
      · exact Or.inl h
      · exact Or.inr ⟨List.mem_cons_of_mem ov h1, h2⟩
    · simp only [addOverrides, List.foldl_cons, hm, if_false] at hq
      rcases ih (dictInsert ovd ov "") q hq with h | ⟨h1, h2⟩
      · rcases keysOf_mem_dictInsert.mp h with h' | rfl
        · exact Or.inl h'
        · exact Or.inr ⟨List.mem_cons_self q ids, by simpa using hm⟩
      · exact Or.inr ⟨List.mem_cons_of_mem ov h1, h2⟩

theorem mem_overrideUniverse {xmlTypes : List AttribDict} {rec : AttribDict}
    {ovs q : String} (hrec : rec ∈ xmlTypes)
    (hovs : dictLookup rec "overrides" = some ovs) (hq : q ∈ splitComma ovs) :
    q ∈ overrideUniverse xmlTypes := by
  induction xmlTypes with
  | nil => exact absurd hrec (List.not_mem_nil rec)
  | cons r rest ih =>
    simp only [overrideUniverse, List.foldr_cons]
    rcases List.mem_cons.mp hrec with rfl | hrec'
    · rw [hovs]
      exact List.mem_append_left _ hq
    · exact List.mem_append_right _ (ih hrec')

theorem passOneRecord_spec {k : String} {st st2 : AttribDict × AttribDict}
    {record : AttribDict} (hk : dictMem st.1 k = true)
    (h : passOneRecord k st record = some st2) :
    keysOf st2.1 = keysOf st.1 ∧
    st.2.length ≤ st2.2.length ∧
    (∀ q ∈ keysOf st2.2, q ∈ keysOf st.2 ∨
      (dictMem st.1 q = false ∧ ∃ ovs, dictLookup record "overrides" = some ovs ∧
        q ∈ splitComma ovs)) ∧
    (st2.2 = [] → st.2 = [] ∧
      ∀ nm, dictLookup record "name" = some nm → nm = k →
      ∀ ovs, dictLookup record "overrides" = some ovs →
      ∀ ov ∈ splitComma ovs, dictMem st.1 ov = true) := by
  rcases hnm : dictLookup record "name" with - | nm
  · simp [passOneRecord, hnm] at h
  by_cases hke : nm = k
  · rcases hcls : dictLookup record "class" with - | cls
    · simp [passOneRecord, hnm, hke, hcls] at h
    have hkeys : keysOf (dictInsert st.1 k cls) = keysOf st.1 :=
      keysOf_dictInsert_of_mem hk cls
    rcases hovs : dictLookup record "overrides" with - | ovs
    · simp only [passOneRecord, hnm, hke, if_true, hcls, hovs] at h
      obtain rfl := (Option.some.inj h).symm
      refine ⟨hkeys, Nat.le_refl _, fun q hq => Or.inl hq, fun h0 => ⟨h0, ?_⟩⟩
      intro nm2 hnm2 _ ovs2 hovs2
      exact absurd hovs2 (by simp)
    · simp only [passOneRecord, hnm, hke, if_true, hcls, hovs] at h
      obtain rfl := (Option.some.inj h).symm
      refine ⟨hkeys, addOverrides_length _ _ _, ?_, ?_⟩
      · intro q hq
        rcases addOverrides_keys _ _ _ q hq with h' | ⟨h1, h2⟩
        · exact Or.inl h'
        · refine Or.inr ⟨?_, ovs, rfl, h1⟩
          rw [dictMem_eq_of_keysOf_eq hkeys.symm q]
          exact h2
      · intro h0
        obtain ⟨h1, h2⟩ := addOverrides_eq_nil _ _ _ h0
        refine ⟨h1, ?_⟩
        intro nm2 hnm2 _ ovs2 hovs2 ov hov
        obtain rfl := Option.some.inj hovs2
        have h3 := h2 ov hov
        rw [dictMem_eq_of_keysOf_eq hkeys ov] at h3
        exact h3
  · simp only [passOneRecord, hnm, hke, if_false] at h
    obtain rfl := (Option.some.inj h).symm
    refine ⟨rfl, Nat.le_refl _, fun q hq => Or.inl hq, fun h0 => ⟨h0, ?_⟩⟩
    intro nm2 hnm2 hnm2k
    obtain rfl := Option.some.inj hnm2
    exact absurd hnm2k hke

theorem passRecords_spec {k : String} :
    ∀ {records : List AttribDict} {st st2 : AttribDict × AttribDict},
    dictMem st.1 k = true →
    passRecords k records st = some st2 →
    keysOf st2.1 = keysOf st.1 ∧
    st.2.length ≤ st2.2.length ∧
    (∀ q ∈ keysOf st2.2, q ∈ keysOf st.2 ∨
      (dictMem st.1 q = false ∧ ∃ rec ∈ records, ∃ ovs,
        dictLookup rec "overrides" = some ovs ∧ q ∈ splitComma ovs)) ∧
    (st2.2 = [] → st.2 = [] ∧
      ∀ rec ∈ records, ∀ nm, dictLookup rec "name" = some nm → nm = k →
      ∀ ovs, dictLookup rec "overrides" = some ovs →
      ∀ ov ∈ splitComma ovs, dictMem st.1 ov = true) := by
  intro records
  induction records with
  | nil =>
    intro st st2 hk h
    obtain rfl := (Option.some.inj h).symm
    exact ⟨rfl, Nat.le_refl _, fun q hq => Or.inl hq,
      fun h0 => ⟨h0, fun rec hrec => absurd hrec (List.not_mem_nil rec)⟩⟩
  | cons record rest ih =>
    intro st st2 hk h
    rcases h1 : passOneRecord k st record with - | st1
    · simp [passRecords, h1] at h
    simp only [passRecords, h1] at h
    obtain ⟨hkeys1, hlen1, horig1, hemp1⟩ := passOneRecord_spec hk h1
    have hk1 : dictMem st1.1 k = true := by
      rw [dictMem_eq_of_keysOf_eq hkeys1 k]
      exact hk
    obtain ⟨hkeys2, hlen2, horig2, hemp2⟩ := ih hk1 h
    refine ⟨hkeys2.trans hkeys1, hlen1.trans hlen2, ?_, ?_⟩
    · intro q hq
      rcases horig2 q hq with h' | ⟨hmem, rec, hrec, ovs, hovs, hq2⟩
      · rcases horig1 q h' with h'' | ⟨hmem, ovs, hovs, hq2⟩
        · exact Or.inl h''
        · exact Or.inr ⟨hmem, record, List.mem_cons_self record rest, ovs, hovs, hq2⟩
      · rw [dictMem_eq_of_keysOf_eq hkeys1 q] at hmem
        exact Or.inr ⟨hmem, rec, List.mem_cons_of_mem record hrec, ovs, hovs, hq2⟩
    · intro h0
      obtain ⟨h01, hclos2⟩ := hemp2 h0
      obtain ⟨h02, hclos1⟩ := hemp1 h01
      refine ⟨h02, ?_⟩
      intro rec hrec nm hnm hnmk ovs hovs ov hov
      rcases List.mem_cons.mp hrec with rfl | hrec'
      · exact hclos1 nm hnm hnmk ovs hovs ov hov
      · have := hclos2 rec hrec' nm hnm hnmk ovs hovs ov hov
        rw [dictMem_eq_of_keysOf_eq hkeys1 ov] at this
        exact this

theorem passKeys_spec {xmlTypes : List AttribDict} :
    ∀ {ks : List String} {st st2 : AttribDict × AttribDict},
    (∀ k ∈ ks, dictMem st.1 k = true) →
    passKeys xmlTypes ks st = some st2 →
    keysOf st2.1 = keysOf st.1 ∧
    st.2.length ≤ st2.2.length ∧
    (∀ q ∈ keysOf st2.2, q ∈ keysOf st.2 ∨
      (dictMem st.1 q = false ∧ ∃ rec ∈ xmlTypes, ∃ ovs,
        dictLookup rec "overrides" = some ovs ∧ q ∈ splitComma ovs)) ∧
    (st2.2 = [] → st.2 = [] ∧
      ∀ k ∈ ks, ∀ rec ∈ xmlTypes, ∀ nm, dictLookup rec "name" = some nm → nm = k →
      ∀ ovs, dictLookup rec "overrides" = some ovs →
      ∀ ov ∈ splitComma ovs, dictMem st.1 ov = true) := by
  intro ks
  induction ks with
  | nil =>
    intro st st2 hks h
    obtain rfl := (Option.some.inj h).symm
    exact ⟨rfl, Nat.le_refl _, fun q hq => Or.inl hq,
      fun h0 => ⟨h0, fun k hk => absurd hk (List.not_mem_nil k)⟩⟩
  | cons k rest ih =>
    intro st st2 hks h
    rcases h1 : passRecords k xmlTypes st with - | st1
    · simp [passKeys, h1] at h
    simp only [passKeys, h1] at h
    have hk : dictMem st.1 k = true := hks k (List.mem_cons_self k rest)
    obtain ⟨hkeys1, hlen1, horig1, hemp1⟩ := passRecords_spec hk h1
    have hks1 : ∀ k2 ∈ rest, dictMem st1.1 k2 = true := by
      intro k2 hk2
      rw [dictMem_eq_of_keysOf_eq hkeys1 k2]
      exact hks k2 (List.mem_cons_of_mem k hk2)
    obtain ⟨hkeys2, hlen2, horig2, hemp2⟩ := ih hks1 h
    refine ⟨hkeys2.trans hkeys1, hlen1.trans hlen2, ?_, ?_⟩
    · intro q hq
      rcases horig2 q hq with h' | ⟨hmem, rec, hrec, ovs, hovs, hq2⟩
      · exact horig1 q h'
      · rw [dictMem_eq_of_keysOf_eq hkeys1 q] at hmem
        exact Or.inr ⟨hmem, rec, hrec, ovs, hovs, hq2⟩
    · intro h0
      obtain ⟨h01, hclos2⟩ := hemp2 h0
      obtain ⟨h02, hclos1⟩ := hemp1 h01
      refine ⟨h02, ?_⟩
      intro k2 hk2 rec hrec nm hnm hnmk ovs hovs ov hov
      rcases List.mem_cons.mp hk2 with rfl | hk2'
      · exact hclos1 rec hrec nm hnm hnmk ovs hovs ov hov
      · have := hclos2 k2 hk2' rec hrec nm hnm hnmk ovs hovs ov hov
        rw [dictMem_eq_of_keysOf_eq hkeys1 ov] at this
        exact this

/-- Well-formedness of the document's `Type` records: each has the mandatory
`name` and `class` attributes. -/
def WFTypeRecords (xmlTypes : List AttribDict) : Prop :=
  ∀ rec ∈ xmlTypes, (dictLookup rec "name").isSome = true ∧
    (dictLookup rec "class").isSome = true

theorem passOneRecord_total {k : String} {st : AttribDict × AttribDict}
    {record : AttribDict} (h1 : (dictLookup record "name").isSome = true)
    (h2 : (dictLookup record "class").isSome = true) :
    ∃ st2, passOneRecord k st record = some st2 := by
  obtain ⟨nm, hnm⟩ := Option.isSome_iff_exists.mp h1
  obtain ⟨cls, hcls⟩ := Option.isSome_iff_exists.mp h2
  by_cases hke : nm = k
  · rcases hovs : dictLookup record "overrides" with - | ovs
    · exact ⟨(dictInsert st.1 k cls, st.2),
        by simp [passOneRecord, hnm, hke, hcls, hovs]⟩
    · exact ⟨(dictInsert st.1 k cls,
          addOverrides (dictInsert st.1 k cls) st.2 (splitComma ovs)),
        by simp [passOneRecord, hnm, hke, hcls, hovs]⟩
  · exact ⟨st, by simp [passOneRecord, hnm, hke]⟩

theorem passRecords_total {k : String} :
    ∀ {records : List AttribDict} {st : AttribDict × AttribDict},
    (∀ rec ∈ records, (dictLookup rec "name").isSome = true ∧
      (dictLookup rec "class").isSome = true) →
    ∃ st2, passRecords k records st = some st2 := by
  intro records
  induction records with
  | nil => intro st _; exact ⟨st, rfl⟩
  | cons record rest ih =>
    intro st hwf
    obtain ⟨st1, h1⟩ := @passOneRecord_total k st record
      (hwf record (List.mem_cons_self record rest)).1
      (hwf record (List.mem_cons_self record rest)).2
    obtain ⟨st2, h2⟩ := @ih st1
      (fun rec hrec => hwf rec (List.mem_cons_of_mem record hrec))
    exact ⟨st2, by simp only [passRecords, h1, h2]⟩

theorem passKeys_total {xmlTypes : List AttribDict}
    (hwf : WFTypeRecords xmlTypes) :
    ∀ {ks : List String} {st : AttribDict × AttribDict},
    ∃ st2, passKeys xmlTypes ks st = some st2 := by
  intro ks
  induction ks with
  | nil => intro st; exact ⟨st, rfl⟩
  | cons k rest ih =>
    intro st
    obtain ⟨st1, h1⟩ := @passRecords_total k xmlTypes st hwf
    obtain ⟨st2, h2⟩ := @ih st1
    exact ⟨st2, by simp only [passKeys, h1, h2]⟩

theorem overridePass_spec {xmlTypes : List AttribDict} {atd atd2 ovd : AttribDict}
    (h : overridePass xmlTypes atd = some (atd2, ovd)) :
    keysOf atd2 = keysOf atd ∧
    (∀ q ∈ keysOf ovd, dictMem atd q = false ∧ ∃ rec ∈ xmlTypes, ∃ ovs,
      dictLookup rec "overrides" = some ovs ∧ q ∈ splitComma ovs) ∧
    (ovd = [] →
      ∀ k ∈ keysOf atd, ∀ rec ∈ xmlTypes, ∀ nm, dictLookup rec "name" = some nm →
      nm = k → ∀ ovs, dictLookup rec "overrides" = some ovs →
      ∀ ov ∈ splitComma ovs, dictMem atd ov = true) := by
  have hks : ∀ k ∈ keysOf atd, dictMem (atd, ([] : AttribDict)).1 k = true :=
    fun k hk => dictMem_iff_keysOf.mpr hk
  obtain ⟨hkeys, -, horig, hemp⟩ := passKeys_spec hks h
  refine ⟨hkeys, ?_, ?_⟩
  · intro q hq
    rcases horig q hq with h' | ⟨hmem, hrest⟩
    · exact absurd h' (by simp [keysOf])
    · exact ⟨hmem, hrest⟩
  · intro h0 k hk rec hrec nm hnm hnmk ovs hovs ov hov
    exact (hemp h0).2 k hk rec hrec nm hnm hnmk ovs hovs ov hov

theorem overridePass_total {xmlTypes : List AttribDict} (hwf : WFTypeRecords xmlTypes)
    (atd : AttribDict) : ∃ res, overridePass xmlTypes atd = some res :=
  passKeys_total hwf

theorem filter_length_mono {α : Type} {p q : α → Bool} :
    ∀ l : List α, (∀ a ∈ l, q a = true → p a = true) →
    (l.filter q).length ≤ (l.filter p).length := by
  intro l
  induction l with
  | nil => intro _; exact Nat.le_refl _
  | cons x l ih =>
    intro h
    have ihl := ih (fun a ha => h a (List.mem_cons_of_mem x ha))
    by_cases hq : q x = true
    · have hp := h x (List.mem_cons_self x l) hq
      simp only [List.filter_cons, hq, hp, if_true]
      exact Nat.succ_le_succ ihl
    · rw [Bool.not_eq_true] at hq
      by_cases hp : p x = true
      · simp only [List.filter_cons, hq, hp]
        exact ihl.trans (Nat.le_succ _)
      · rw [Bool.not_eq_true] at hp
        simp only [List.filter_cons, hq, hp]
        exact ihl

theorem filter_length_lt {α : Type} {p q : α → Bool} :
    ∀ l : List α, (∀ a ∈ l, q a = true → p a = true) →
    ∀ a0, a0 ∈ l → p a0 = true → q a0 = false →
    (l.filter q).length < (l.filter p).length := by
  intro l
  induction l with
  | nil => intro _ a0 h0; exact absurd h0 (List.not_mem_nil a0)
  | cons x l ih =>
    intro h a0 ha0 hp0 hq0
    have hmono := filter_length_mono l (fun a ha => h a (List.mem_cons_of_mem x ha))
    rcases List.mem_cons.mp ha0 with rfl | ha0'
    · simp only [List.filter_cons, hp0, hq0, if_true]
      exact Nat.lt_succ_of_le hmono
    · have ihl := ih (fun a ha => h a (List.mem_cons_of_mem x ha)) a0 ha0' hp0 hq0
      by_cases hq : q x = true
      · have hp := h x (List.mem_cons_self x l) hq
        simp only [List.filter_cons, hq, hp, if_true]
        exact Nat.succ_lt_succ ihl
      · rw [Bool.not_eq_true] at hq
        by_cases hp : p x = true
        · simp only [List.filter_cons, hq, hp]
          exact ihl.trans (Nat.lt_succ_self _)
        · rw [Bool.not_eq_true] at hp
          simp only [List.filter_cons, hq, hp]
          exact ihl

theorem resolveMeasure_lt {xmlTypes : List AttribDict} {atd atd2 ovd : AttribDict}
    (h : overridePass xmlTypes atd = some (atd2, ovd)) (hne : ovd ≠ []) :
    resolveMeasure xmlTypes (dictUpdate atd2 ovd) < resolveMeasure xmlTypes atd := by
  obtain ⟨hkeys, hfresh, -⟩ := overridePass_spec h
  obtain ⟨p0, hp0⟩ := List.exists_mem_of_ne_nil ovd hne
  have hp0k : p0.1 ∈ keysOf ovd := List.mem_map_of_mem Prod.fst hp0
  obtain ⟨hfresh0, rec, hrec, ovs, hovs, hq⟩ := hfresh p0.1 hp0k
  have hmemup : dictMem (dictUpdate atd2 ovd) p0.1 = true :=
    dictMem_dictUpdate.mpr (Or.inr hp0k)
  apply filter_length_lt
  · intro a _ hqa
    rw [Bool.not_eq_true'] at hqa ⊢
    cases hm : dictMem atd a with
    | false => rfl
    | true =>
      have hup : dictMem (dictUpdate atd2 ovd) a = true :=
        dictMem_dictUpdate.mpr (Or.inl (by
          rw [dictMem_eq_of_keysOf_eq hkeys a]
          exact hm))
      rw [hup] at hqa
      simp at hqa
  · exact mem_overrideUniverse hrec hovs hq
  · show (!(dictMem atd p0.1)) = true
    rw [hfresh0]
    rfl
  · show (!(dictMem (dictUpdate atd2 ovd) p0.1)) = false
    rw [hmemup]
    rfl

theorem resolveLoopAux_spec {xmlTypes : List AttribDict}
    (hwf : WFTypeRecords xmlTypes) :
    ∀ fuel (atd : AttribDict) (notes : List String),
    resolveMeasure xmlTypes atd < fuel →
    ∃ final notesF, resolveLoopAux xmlTypes fuel atd notes = some (final, notesF) ∧
      (∀ k, dictMem atd k = true → dictMem final k = true) ∧
      (∀ rec ∈ xmlTypes, ∀ nm, dictLookup rec "name" = some nm →
        dictMem final nm = true → ∀ ovs, dictLookup rec "overrides" = some ovs →
        ∀ ov ∈ splitComma ovs, dictMem final ov = true) ∧
      (∀ k, k ∈ notesF ↔ k ∈ notes ∨
        (dictMem final k = true ∧ dictMem atd k = false)) := by
  intro fuel
  induction fuel with
  | zero => intro atd notes hlt; exact absurd hlt (Nat.not_lt_zero _)
  | succ fuel ih =>
    intro atd notes hlt
    obtain ⟨⟨atd2, ovd⟩, hpass⟩ := overridePass_total hwf atd
    obtain ⟨hkeys, hfresh, hclosure⟩ := overridePass_spec hpass
    have hmem12 : ∀ k, dictMem atd k = dictMem atd2 k :=
      fun k => (dictMem_eq_of_keysOf_eq hkeys k).symm
    by_cases hovd : ovd = []
    · subst hovd
      have hupd : dictUpdate atd2 [] = atd2 := rfl
      refine ⟨atd2, notes, ?_, ?_, ?_, ?_⟩
      · simp [resolveLoopAux, hpass, hupd]
      · intro k hk
        rw [← hmem12 k]
        exact hk
      · intro rec hrec nm hnm hmem ovs hovs ov hov
        rw [← hmem12 ov]
        apply hclosure rfl nm ?_ rec hrec nm hnm rfl ovs hovs ov hov
        rw [← dictMem_iff_keysOf, hmem12 nm]
        exact hmem
      · intro k
        constructor
        · exact Or.inl
        · rintro (hk | ⟨hk1, hk2⟩)
          · exact hk
          · rw [← hmem12 k] at hk1
            rw [hk1] at hk2
            exact absurd hk2 (by simp)
    · have hlt2 : resolveMeasure xmlTypes (dictUpdate atd2 ovd) < fuel :=
        Nat.lt_of_lt_of_le (resolveMeasure_lt hpass hovd) (Nat.lt_succ_iff.mp hlt)
      obtain ⟨final, notesF, hrec2, hmono, hclos, hnotes⟩ :=
        ih (dictUpdate atd2 ovd) (notes ++ keysOf ovd) hlt2
      have hmemup : ∀ k, dictMem atd k = true →
          dictMem (dictUpdate atd2 ovd) k = true := by
        intro k hk
        exact dictMem_dictUpdate.mpr (Or.inl (by rw [← hmem12 k]; exact hk))
      refine ⟨final, notesF, ?_, ?_, hclos, ?_⟩
      · simp only [resolveLoopAux, hpass, hovd, if_false]
        exact hrec2
      · exact fun k hk => hmono k (hmemup k hk)
      · intro k
        rw [hnotes k, List.mem_append]
        constructor
        · rintro ((hk | hk) | ⟨hk1, hk2⟩)
          · exact Or.inl hk
          · refine Or.inr ⟨hmono k (dictMem_dictUpdate.mpr (Or.inr hk)), ?_⟩
            exact (hfresh k hk).1
          · refine Or.inr ⟨hk1, ?_⟩
            cases hm : dictMem atd k with
            | false => rfl
            | true =>
              rw [hmemup k hm] at hk2
              exact absurd hk2 (by simp)
        · rintro (hk | ⟨hk1, hk2⟩)
          · exact Or.inl (Or.inl hk)
          · by_cases hkovd : k ∈ keysOf ovd
            · exact Or.inl (Or.inr hkovd)
            · refine Or.inr ⟨hk1, ?_⟩
              cases hm : dictMem (dictUpdate atd2 ovd) k with
              | false => rfl
              | true =>
                rcases dictMem_dictUpdate.mp hm with hm' | hm'
                · rw [← hmem12 k] at hm'
                  rw [hm'] at hk2
                  exact absurd hk2 (by simp)
                · exact absurd hm' hkovd

/-- The set of atom-type identifiers transitively reachable from an initial
key set through the `overrides` attributes of the document's `Type` records.
-/
inductive OverrideReachable (xmlTypes : List AttribDict) (init : List String) :
    String → Prop
  | base {k : String} : k ∈ init → OverrideReachable xmlTypes init k
  | step {nm ovs ov : String} {rec : AttribDict} :
      OverrideReachable xmlTypes init nm → rec ∈ xmlTypes →
      dictLookup rec "name" = some nm →
      dictLookup rec "overrides" = some ovs → ov ∈ splitComma ovs →
      OverrideReachable xmlTypes init ov

/-- Interface of the Parmed `Structure` collaborator, as `forcefield_trim`
uses it: the atom-type name of every atom (`atom.atom_type.name`, in atom
order) and, per interaction kind, the list of interaction tuples already
resolved to atom-type names (what the eval-based access
`topo_element.atom{i}.type` extracts). -/
structure PmdStructure where
  atoms : List String
  bonds : List (List String)
  angles : List (List String)
  rb_torsions : List (List String)
  impropers : List (List String)
deriving DecidableEq, Repr

/-- The `typed_molecule` argument of `forcefield_trim`: either a Parmed
structure or an object of another kind (which must be rejected). -/
inductive TypedMoleculeArg
  | pstruct (s : PmdStructure)
  | other
deriving DecidableEq, Repr

/-- Interface of a parsed force-field XML document: the attribute maps of
the record kinds `forcefield_trim` iterates over (`iter('Type')`,
`iter('Atom')`, and one list per bonded-interaction tag). -/
structure XmlDoc where
  typeRecords : List AttribDict
  atomRecords : List AttribDict
  bondRecords : List AttribDict
  angleRecords : List AttribDict
  properRecords : List AttribDict
  improperRecords : List AttribDict
deriving DecidableEq, Repr

/-- The blank template document (`data/blank.xml`) and the produced output:
one list of records per named section. -/
structure BlankDoc where
  atomTypes : List AttribDict
  nonbondedForce : List AttribDict
  harmonicBondForce : List AttribDict
  harmonicAngleForce : List AttribDict
  rbTorsionForce : List AttribDict
  periodicTorsionForce : List AttribDict
deriving DecidableEq, Repr

/-- The distinguishable failures of `forcefield_trim`: an XML parse failure
(`xml.etree.ElementTree.ParseError`), the documented `ValueError` for a
non-Structure argument, and a Python `KeyError` from a missing dictionary
key during processing. -/
inductive TrimError
  | parseError
  | valueError
  | lookupError
deriving DecidableEq, Repr

/-- The initial atom-type map of `forcefield_trim` (lines 182-186): one key
per distinct atom-type name, value initially the empty string. -/
def initAtomTypeDict (atoms : List String) : AttribDict :=
  atoms.foldl (fun d nm => if dictMem d nm = true then d else dictInsert d nm "") []

/-- The `AtomTypes` copy loop (lines 214-222): every `Type` record whose name
is a known atom type is appended to the output and its class re-assigned
into the map. -/
def copyAtomTypes : List AttribDict → AttribDict → List AttribDict →
    Option (AttribDict × List AttribDict)
  | [], atd, out => some (atd, out)
  | record :: rest, atd, out =>
    match dictLookup record "name" with
    | none => none
    | some nm =>
      if dictMem atd nm = true then
        match dictLookup record "class" with
        | none => none
        | some cls => copyAtomTypes rest (dictInsert atd nm cls) (out ++ [record])
      else copyAtomTypes rest atd out

/-- The `NonbondedForce` copy loop (lines 225-232): every `Atom` record whose
type is a known atom type is appended to the output. -/
def copyNonbonded : List AttribDict → AttribDict → List AttribDict →
    Option (List AttribDict)
  | [], _, out => some out
  | record :: rest, atd, out =>
    match dictLookup record "type" with
    | none => none
    | some ty =>
      copyNonbonded rest atd (if dictMem atd ty = true then out ++ [record] else out)

/-- The body of `forcefield_trim` after the `isinstance` check: build the
initial atom-type map, run the override-resolution loop, copy the atom-type
and nonbonded records, and run `_topology_match` for the four bonded kinds
with the `n_params` values of lines 234-237, appending each kind's matches
to its section of the blank document. -/
def trimBody (s : PmdStructure) (xml : XmlDoc) (blank : BlankDoc) : Option BlankDoc :=
  match resolveLoop xml.typeRecords (initAtomTypeDict s.atoms) [] with
  | none => none
  | some (atd1, _) =>
    match copyAtomTypes xml.typeRecords atd1 blank.atomTypes with
    | none => none
    | some (atd2, atomTypesOut) =>
      match copyNonbonded xml.atomRecords atd2 blank.nonbondedForce with
      | none => none
      | some nonbondedOut =>
        match topology_match atd2 s.bonds xml.bondRecords TopoType.Bond 2 with
        | none => none
        | some bondOut =>
          match topology_match atd2 s.angles xml.angleRecords TopoType.Angle 3 with
          | none => none
          | some angleOut =>
            match topology_match atd2 s.rb_torsions xml.properRecords TopoType.Proper 4 with
            | none => none
            | some properOut =>
              match topology_match atd2 s.impropers xml.improperRecords TopoType.Improper 4 with
              | none => none
              | some improperOut =>
                some { atomTypes := atomTypesOut
                       nonbondedForce := nonbondedOut
                       harmonicBondForce := blank.harmonicBondForce ++ bondOut
                       harmonicAngleForce := blank.harmonicAngleForce ++ angleOut
                       rbTorsionForce := blank.rbTorsionForce ++ properOut
                       periodicTorsionForce := blank.periodicTorsionForce ++ improperOut }

/-- Embedding of `forcefield_trim(typed_molecule, input_xml, output_xml)`
(lines 157-240).  The function first parses the blank template, then the
input file (`none` stands for an unparsable document and raises a parse
error), and only then checks that `typed_molecule` is a Parmed Structure,
raising `ValueError` otherwise; the written output document is the returned
value. -/
def forcefield_trim (blank : Option BlankDoc) (input_xml : Option XmlDoc)
    (typed_molecule : TypedMoleculeArg) : Except TrimError BlankDoc :=
  match blank with
  | none => Except.error TrimError.parseError
  | some blankDoc =>
    match input_xml with
    | none => Except.error TrimError.parseError
    | some xml =>
      match typed_molecule with
      | TypedMoleculeArg.other => Except.error TrimError.valueError
      | TypedMoleculeArg.pstruct s =>
        match trimBody s xml blankDoc with
        | none => Except.error TrimError.lookupError
        | some out => Except.ok out

theorem enumerateFrom_mem {α : Type} {p : Nat × α} :
    ∀ {i : Nat} {l : List α}, p ∈ enumerateFrom i l → p.2 ∈ l := by
  intro i l
  induction l generalizing i with
  | nil => intro h; exact absurd h (List.not_mem_nil p)
  | cons x xs ih =>
    intro h
    rcases List.mem_cons.mp h with rfl | h'
    · exact List.mem_cons_self x xs
    · exact List.mem_cons_of_mem x (ih h')

theorem sortEntriesTagged_mem {entries : List TopoEntry} {p : Nat × TopoEntry}
    (h : p ∈ sortEntriesTagged entries) : p.2 ∈ entries := by
  have h2 : p ∈ enumerate entries :=
    (List.perm_insertionSort lexLe (enumerate entries)).mem_iff.mp h
  exact enumerateFrom_mem h2

theorem classifyEntries_wf {xmlRecords : List AttribDict} {n : Nat} {e : TopoEntry}
    (h : e ∈ classifyEntries xmlRecords n) :
    e.schema = (identify_schema e.attrib n).1 := by
  obtain ⟨a, -, rfl⟩ := List.mem_map.mp h
  rfl

/-- The key under which `_topology_match` deduplicates emissions: the
record's values at its schema positions (what `collection` collects),
determined by the record's attribute map alone. -/
def collKeyOf (n : Nat) (a : AttribDict) : List (Option String) :=
  ((identify_schema a n).1).map (dictLookup a)

theorem tryEntrySeqs_coll_eq {atd : AttribDict} {entry : TopoEntry}
    {x collection : List String} {seqs : List (List Nat)} {n : Nat}
    (hwfe : entry.schema = (identify_schema entry.attrib n).1)
    (hseq : ∀ s ∈ seqs, s.length = n)
    (h : tryEntrySeqs atd entry x seqs = some (some collection)) :
    collection.map some = collKeyOf n entry.attrib := by
  obtain ⟨s, hs, hm⟩ := tryEntrySeqs_some_some h
  have hcoll := matchAux_some_coll hm
  rw [List.drop_zero, applySeq_length, hseq s hs] at hcoll
  rw [hcoll, hwfe, collKeyOf]
  congr 1
  exact List.take_of_length_le (Nat.le_of_eq (identify_schema_length entry.attrib n))

theorem matchAll_nodup_inv {atd : AttribDict} {seqs : List (List Nat)} {n : Nat}
    (hseq : ∀ s ∈ seqs, s.length = n) {entries : List (Nat × TopoEntry)}
    (hwfe : ∀ p ∈ entries, p.2.schema = (identify_schema p.2.attrib n).1) :
    ∀ (interactions : List (List String)) (uc : List (List String))
      (out : List AttribDict) {uc2 : List (List String)} {out2 : List AttribDict},
    uc.map (List.map some) = out.map (collKeyOf n) → uc.Nodup →
    matchAll atd seqs entries interactions (uc, out) = some (uc2, out2) →
    uc2.map (List.map some) = out2.map (collKeyOf n) ∧ uc2.Nodup := by
  intro interactions
  induction interactions with
  | nil =>
    intro uc out uc2 out2 hinv hnd h
    obtain ⟨h1, h2⟩ := Prod.mk.inj (Option.some.inj h)
    rw [← h1, ← h2]
    exact ⟨hinv, hnd⟩
  | cons x rest ih =>
    intro uc out uc2 out2 hinv hnd h
    rcases htry : tryEntries atd seqs x entries with - | ⟨-⟩ | ⟨p, collection⟩
    · simp [matchAll, processInteraction, htry] at h
    · simp only [matchAll, processInteraction, htry] at h
      exact ih uc out hinv hnd h
    · simp only [matchAll, processInteraction, htry] at h
      by_cases hcont : uc.contains collection = true
      · simp only [hcont, if_true] at h
        exact ih uc out hinv hnd h
      · simp only [hcont, if_false] at h
        obtain ⟨l1, l2, heq, -, hts⟩ := tryEntries_decomp htry
        have hpmem : p ∈ entries := by
          rw [heq]
          exact List.mem_append_right l1 (List.mem_cons_self p l2)
        have hcoll := tryEntrySeqs_coll_eq (hwfe p hpmem) hseq hts
        have hnotmem : collection ∉ uc := by
          intro hmem
          exact hcont (List.elem_iff.mpr hmem)
        apply ih (uc ++ [collection]) (out ++ [p.2.attrib])
        · simp only [List.map_append, hinv, List.map_cons, List.map_nil, hcoll]
        · rw [show uc ++ [collection] = uc.concat collection from (List.concat_eq_append uc collection).symm]
          exact hnd.concat hnotmem
        · exact h

theorem improper_applySeq_perm (a b c d : String) {s : List Nat}
    (hs : s ∈ sequences TopoType.Improper) :
    List.Perm (applySeq [a, b, c, d] s) [a, b, c, d] := by
  simp only [sequences, List.mem_cons] at hs
  rcases hs with rfl | rfl | rfl | rfl | rfl | rfl | hemp
  · exact List.Perm.refl _
  · exact List.Perm.cons a (List.Perm.cons b (List.Perm.swap c d []))
  · exact List.Perm.cons a (List.Perm.swap b c [d])
  · exact List.Perm.cons a
      ((List.Perm.cons c (List.Perm.swap b d [])).trans (List.Perm.swap b c [d]))
  · exact List.Perm.cons a
      ((List.Perm.swap b d [c]).trans (List.Perm.cons b (List.Perm.swap c d [])))
  · exact List.Perm.cons a
      ((List.Perm.cons d (List.Perm.swap b c [])).trans
        ((List.Perm.swap b d [c]).trans (List.Perm.cons b (List.Perm.swap c d []))))
  · exact absurd hemp (List.not_mem_nil s)

theorem tryEntrySeqs_finds {atd : AttribDict} {entry : TopoEntry} {x : List String} :
    ∀ {seqs : List (List Nat)},
    (∀ s2 ∈ seqs,
      (matchAux atd entry.attrib entry.schema (applySeq x s2) 0).isSome = true) →
    ∀ s ∈ seqs, ∀ collection,
    matchAux atd entry.attrib entry.schema (applySeq x s) 0 = some (true, collection) →
    ∃ c2, tryEntrySeqs atd entry x seqs = some (some c2) := by
  intro seqs
  induction seqs with
  | nil => intro _ s hs; exact absurd hs (List.not_mem_nil s)
  | cons s0 rest ih =>
    intro hsome s hs collection hm
    obtain ⟨⟨m0, c0⟩, hm0⟩ := Option.isSome_iff_exists.mp
      (hsome s0 (List.mem_cons_self s0 rest))
    cases m0 with
    | true =>
      refine ⟨c0, ?_⟩
      simp only [tryEntrySeqs, hm0]
      rfl
    | false =>
      rcases List.mem_cons.mp hs with rfl | hs'
      · rw [hm] at hm0
        simp at hm0
      · obtain ⟨c2, hc2⟩ := ih (fun s2 hs2 => hsome s2 (List.mem_cons_of_mem s0 hs2))
          s hs' collection hm
        refine ⟨c2, ?_⟩
        simp only [tryEntrySeqs, hm0]
        simpa using hc2

theorem resolveLoopAux_notes {xmlTypes : List AttribDict} :
    ∀ (fuel : Nat) (atd : AttribDict) (notes : List String)
      (final : AttribDict) (notesF : List String),
    resolveLoopAux xmlTypes fuel atd notes = some (final, notesF) →
    (∀ k, dictMem atd k = true → dictMem final k = true) ∧
    (∀ k, k ∈ notesF ↔ k ∈ notes ∨
      (dictMem final k = true ∧ dictMem atd k = false)) := by
  intro fuel
  induction fuel with
  | zero => intro atd notes final notesF h; simp [resolveLoopAux] at h
  | succ fuel ih =>
    intro atd notes final notesF h
    rcases hpass : overridePass xmlTypes atd with - | ⟨atd2, ovd⟩
    · simp [resolveLoopAux, hpass] at h
    obtain ⟨hkeys, hfresh, -⟩ := overridePass_spec hpass
    have hmem12 : ∀ k, dictMem atd k = dictMem atd2 k :=
      fun k => (dictMem_eq_of_keysOf_eq hkeys k).symm
    by_cases hovd : ovd = []
    · subst hovd
      simp only [resolveLoopAux, hpass, if_pos rfl] at h
      obtain ⟨h1, h2⟩ := Prod.mk.inj (Option.some.inj h)
      rw [show dictUpdate atd2 [] = atd2 from rfl] at h1
      subst h1
      subst h2
      refine ⟨fun k hk => by rw [← hmem12 k]; exact hk, fun k => ?_⟩
      constructor
      · exact Or.inl
      · rintro (hk | ⟨hk1, hk2⟩)
        · exact hk
        · rw [← hmem12 k] at hk1
          rw [hk1] at hk2
          exact absurd hk2 (by simp)
    · simp only [resolveLoopAux, hpass, if_neg hovd] at h
      obtain ⟨hmono, hnotes⟩ := ih (dictUpdate atd2 ovd) (notes ++ keysOf ovd)
        final notesF h
      have hmemup : ∀ k, dictMem atd k = true →
          dictMem (dictUpdate atd2 ovd) k = true := by
        intro k hk
        exact dictMem_dictUpdate.mpr (Or.inl (by rw [← hmem12 k]; exact hk))
      refine ⟨fun k hk => hmono k (hmemup k hk), fun k => ?_⟩
      rw [hnotes k, List.mem_append]
      constructor
      · rintro ((hk | hk) | ⟨hk1, hk2⟩)
        · exact Or.inl hk
        · exact Or.inr ⟨hmono k (dictMem_dictUpdate.mpr (Or.inr hk)), (hfresh k hk).1⟩
        · refine Or.inr ⟨hk1, ?_⟩
          cases hm : dictMem atd k with
          | false => rfl
          | true =>
            rw [hmemup k hm] at hk2
            exact absurd hk2 (by simp)
      · rintro (hk | ⟨hk1, hk2⟩)
        · exact Or.inl (Or.inl hk)
        · by_cases hkovd : k ∈ keysOf ovd
          · exact Or.inl (Or.inr hkovd)
          · refine Or.inr ⟨hk1, ?_⟩
            cases hm : dictMem (dictUpdate atd2 ovd) k with
            | false => rfl
            | true =>
              rcases dictMem_dictUpdate.mp hm with hm' | hm'
              · rw [← hmem12 k] at hm'
                rw [hm'] at hk2
                exact absurd hk2 (by simp)
              · exact absurd hm' hkovd

/-- Concrete atom-type map for the bond examples. -/
def exAtdBond : AttribDict := [("A", "CA"), ("B", "CB")]

/-- A bond record constrained entirely by class (weight 2), first in the
document. -/
def exRecClass : AttribDict := [("class1", "CA"), ("class2", "CB"), ("k", "1")]

/-- A bond record constrained entirely by type (weight 0), second in the
document. -/
def exRecType : AttribDict := [("type1", "A"), ("type2", "B"), ("k", "2")]

/-- The classified form of `exRecType`. -/
def exEntryType : TopoEntry :=
  { schema := ["type1", "type2"], weight := 0, attrib := exRecType }

/-- The classified form of `exRecClass`. -/
def exEntryClass : TopoEntry :=
  { schema := ["class1", "class2"], weight := 2, attrib := exRecClass }

/-- Atom-type map sending two types to one shared class. -/
def exAtdShared : AttribDict := [("A", "C"), ("B", "C")]

/-- A bond record over the shared class, matching two distinct interactions.
-/
def exRecClassC : AttribDict := [("class1", "C"), ("class2", "C")]

/-- Atom-type map for the improper example. -/
def exAtdImp : AttribDict := [("A", "CA"), ("B", "CB"), ("C", "CC"), ("D", "CD")]

/-- An improper record for center A with peripherals in the order C, B, D. -/
def exRecImp : AttribDict :=
  [("type1", "A"), ("type2", "C"), ("type3", "B"), ("type4", "D")]

/-- The classified form of `exRecImp`. -/
def exEntryImp : TopoEntry :=
  { schema := ["type1", "type2", "type3", "type4"], weight := 0, attrib := exRecImp }

/-- Type records where X (present in the structure) overrides Y, and Y has
its own record with a class. -/
def exXmlOverride : List AttribDict :=
  [[("name", "X"), ("class", "CX"), ("overrides", "Y")],
   [("name", "Y"), ("class", "CY")]]

/-- An empty blank template document. -/
def exBlankEmpty : BlankDoc := ⟨[], [], [], [], [], []⟩

/-- An empty parsed input document. -/
def exXmlEmpty : XmlDoc := ⟨[], [], [], [], [], []⟩

/-- Three bond interactions: a tuple, its reverse, and an inequivalent one.
-/
def exDedupInput : List (List String) := [["A", "B"], ["B", "A"], ["A", "A"]]

/-- C1: for every interaction kind, interaction tuple and candidate pool, the
record the matcher selects for an interaction matches it, and any other
candidate that could match under some valid atom order either has strictly
larger weight (more class-constrained positions) or has equal weight and a
source-document index no smaller than the selected record's: candidates are
scanned in ascending-weight order produced by a stable sort. -/
theorem spec_c1_specificity_priority (atd : AttribDict) (tt : TopoType)
    (xmlRecords : List AttribDict) (n : Nat) (x : List String)
    (i : Nat) (e : TopoEntry) (coll : List String)
    (h : tryEntries atd (sequences tt) x
      (sortEntriesTagged (classifyEntries xmlRecords n)) = some (some ((i, e), coll))) :
    entryMatches atd (sequences tt) e x ∧
    ∀ j e2, (j, e2) ∈ enumerate (classifyEntries xmlRecords n) →
      entryMatches atd (sequences tt) e2 x →
      e.weight < e2.weight ∨ (e.weight = e2.weight ∧ i ≤ j) := by
  obtain ⟨l1, l2, heq, hl1, hts⟩ := tryEntries_decomp h
  have hmatch : entryMatches atd (sequences tt) e x := by
    obtain ⟨s, hs, hm⟩ := tryEntrySeqs_some_some hts
    exact ⟨s, hs, coll, hm⟩
  refine ⟨hmatch, ?_⟩
  intro j e2 hj hm2
  have hsorted : List.Pairwise lexLe (sortEntriesTagged (classifyEntries xmlRecords n)) :=
    List.sorted_insertionSort lexLe (enumerate (classifyEntries xmlRecords n))
  rw [heq] at hsorted
  have hjmem : (j, e2) ∈ l1 ++ (i, e) :: l2 := by
    rw [← heq]
    exact (List.perm_insertionSort lexLe _).mem_iff.mpr hj
  rcases List.mem_append.mp hjmem with hm1 | hm1
  · exact absurd hm2 (tryEntrySeqs_not_matches (hl1 _ hm1))
  · rcases List.mem_cons.mp hm1 with hm1 | hm1
    · obtain ⟨rfl, rfl⟩ := Prod.mk.inj hm1.symm
      exact Or.inr ⟨rfl, Nat.le_refl i⟩
    · have hlex : lexLe (i, e) (j, e2) :=
        List.rel_of_pairwise_cons (List.pairwise_append.mp hsorted).2.1 hm1
      exact hlex

theorem spec_c1_specificity_priority_witness :
    exEntryType.weight < exEntryClass.weight ∨
      (exEntryType.weight = exEntryClass.weight ∧ 1 ≤ 0) :=
  (spec_c1_specificity_priority exAtdBond TopoType.Bond [exRecClass, exRecType] 2
    ["A", "B"] 1 exEntryType ["A", "B"] rfl).2 0 exEntryClass (by decide)
    ⟨[0, 1], by decide, ["CA", "CB"], rfl⟩

/-- C2: the deduplicated interaction list of one kind is a sublist of the
input (retained tuples keep their input order), contains no two tuples that
are symmetry-equivalent in either direction, every input tuple is equivalent
to a retained one, and an input tuple with no equivalent earlier occurrence
is retained — retained tuples are exactly the first occurrences, in order.
-/
theorem spec_c2_symmetry_dedup (tt : TopoType) (l : List (List String))
    (hl : ∀ x ∈ l, x.length = nParams tt) :
    List.Sublist (dedupTopo tt l) l ∧
    List.Pairwise (fun a b => ¬ EquivUnder (sequences tt) a b ∧
      ¬ EquivUnder (sequences tt) b a) (dedupTopo tt l) ∧
    (∀ x ∈ l, ∃ y ∈ dedupTopo tt l, EquivUnder (sequences tt) x y) ∧
    (∀ l1 y l2, l = l1 ++ y :: l2 →
      (∀ x ∈ l1, ¬ EquivUnder (sequences tt) y x) → y ∈ dedupTopo tt l) := by
  have hsub : List.Sublist (dedupTopo tt l) l := by
    obtain ⟨s, hs, hsubl⟩ := dedupTopoAux_extend (sequences tt) l []
    rw [dedupTopo, hs]
    simpa using hsubl
  have hmemlen : ∀ y ∈ dedupTopo tt l, y.length = nParams tt :=
    fun y hy => hl y (hsub.subset hy)
  refine ⟨hsub, ?_, ?_, ?_⟩
  · have hpw := dedupTopoAux_pairwise (sequences tt) l [] List.Pairwise.nil
    apply List.Pairwise.imp_of_mem ?_ hpw
    intro a b ha hb hr
    constructor
    · intro he
      obtain ⟨s0, hs0, he0⟩ := equivUnder_symm tt (hmemlen a ha) he
      exact hr s0 hs0 he0
    · intro he
      obtain ⟨s0, hs0, he0⟩ := he
      exact hr s0 hs0 he0
  · intro x hx
    exact dedupTopoAux_complete (sequences tt) l []
      (fun z hz => equivUnder_refl tt z (hl z hz)) x hx
  · intro l1 y l2 heq hfirst
    rw [dedupTopo, heq]
    exact dedupTopoAux_first (sequences tt) l1 [] y l2
      (fun a ha => absurd ha (List.not_mem_nil a)) hfirst

theorem spec_c2_symmetry_dedup_witness :
    List.Sublist (dedupTopo TopoType.Bond exDedupInput) exDedupInput ∧
    (∃ y ∈ dedupTopo TopoType.Bond exDedupInput,
      EquivUnder (sequences TopoType.Bond) ["B", "A"] y) :=
  ⟨(spec_c2_symmetry_dedup TopoType.Bond exDedupInput (by decide)).1,
   (spec_c2_symmetry_dedup TopoType.Bond exDedupInput (by decide)).2.2.1
     ["B", "A"] (by decide)⟩

/-- C3: for the four-body star (Improper) kind the matcher tries exactly the
six permutations of the three peripheral atoms with the central atom held
fixed in position one (each tried ordering is a permutation of [0,1,2,3]
starting with 0); every tried ordering keeps the central atom A first, and a
candidate record that fully matches interaction (A,B,C,D) under any of the
six orderings is found by the per-record sequence scan. -/
theorem spec_c3_improper_center (atd : AttribDict) (e : TopoEntry)
    (a b c d : String) (s : List Nat) (coll : List String)
    (hs : s ∈ sequences TopoType.Improper)
    (hm : matchAux atd e.attrib e.schema (applySeq [a, b, c, d] s) 0 =
      some (true, coll)) :
    sequences TopoType.Improper =
      [[0, 1, 2, 3], [0, 1, 3, 2], [0, 2, 1, 3], [0, 2, 3, 1], [0, 3, 1, 2], [0, 3, 2, 1]] ∧
    (∀ t ∈ sequences TopoType.Improper, t.getD 0 9 = 0 ∧ List.Perm t [0, 1, 2, 3]) ∧
    (applySeq [a, b, c, d] s).getD 0 "" = a ∧
    (∃ c2, tryEntrySeqs atd e [a, b, c, d] (sequences TopoType.Improper) =
      some (some c2)) := by
  refine ⟨rfl, by decide, ?_, ?_⟩
  · simp only [sequences, List.mem_cons] at hs
    rcases hs with rfl | rfl | rfl | rfl | rfl | rfl | hemp
    · rfl
    · rfl
    · rfl
    · rfl
    · rfl
    · rfl
    · exact absurd hemp (List.not_mem_nil s)
  · apply tryEntrySeqs_finds ?_ s hs coll hm
    intro s2 hs2
    apply matchAux_isSome_of_perm
      ((improper_applySeq_perm a b c d hs).trans
        (improper_applySeq_perm a b c d hs2).symm)
    rw [hm]
    rfl

theorem spec_c3_improper_center_witness :
    (applySeq ["A", "B", "C", "D"] [0, 2, 1, 3]).getD 0 "" = "A" ∧
    (∃ c2, tryEntrySeqs exAtdImp exEntryImp ["A", "B", "C", "D"]
      (sequences TopoType.Improper) = some (some c2)) :=
  ⟨(spec_c3_improper_center exAtdImp exEntryImp "A" "B" "C" "D" [0, 2, 1, 3]
      ["A", "C", "B", "D"] (by decide) rfl).2.2.1,
   (spec_c3_improper_center exAtdImp exEntryImp "A" "B" "C" "D" [0, 2, 1, 3]
      ["A", "C", "B", "D"] (by decide) rfl).2.2.2⟩

/-- C4: for well-formed Type records the resolution loop terminates without
any fatal error, the final map keeps every initial key, and every identifier
transitively reachable from the structure's types through overrides
attributes — including identifiers absent from the structure itself —
appears as a key of the final type-to-class map (the fixed point is closed
under one more override step). -/
theorem spec_c4_override_fixed_point (xmlTypes : List AttribDict)
    (atd0 : AttribDict) (hwf : WFTypeRecords xmlTypes) :
    ∃ final notes, resolveLoop xmlTypes atd0 [] = some (final, notes) ∧
      (∀ k, dictMem atd0 k = true → dictMem final k = true) ∧
      (∀ k, OverrideReachable xmlTypes (keysOf atd0) k →
        dictMem final k = true) := by
  obtain ⟨final, notesF, heq, hmono, hclos, -⟩ :=
    resolveLoopAux_spec hwf (resolveMeasure xmlTypes atd0 + 1) atd0 []
      (Nat.lt_succ_self _)
  refine ⟨final, notesF, heq, hmono, ?_⟩
  intro k hk
  induction hk with
  | base hk0 => exact hmono _ (dictMem_iff_keysOf.mpr hk0)
  | step h1 h2 h3 h4 h5 ihk => exact hclos _ h2 _ h3 ihk _ h4 _ h5

theorem spec_c4_override_fixed_point_witness :
    ∃ final notes, resolveLoop exXmlOverride [("X", "")] [] = some (final, notes) ∧
      (∀ k, dictMem [("X", "")] k = true → dictMem final k = true) ∧
      (∀ k, OverrideReachable exXmlOverride (keysOf [("X", "")]) k →
        dictMem final k = true) :=
  spec_c4_override_fixed_point exXmlOverride [("X", "")]
    (by unfold WFTypeRecords; decide)

/-- C5: in one run of the matcher for one interaction kind the emitted
output contains no record twice: a record (hence each (record, atom-order)
pair) is appended to the output document at most once, even when several
structural interactions of the kind match it, because emissions are keyed by
the record's collection of constrained values. -/
theorem spec_c5_unique_emission (atd : AttribDict)
    (typed_topo : List (List String)) (xmlRecords : List AttribDict)
    (tt : TopoType) (out : List AttribDict)
    (h : topology_match atd typed_topo xmlRecords tt (nParams tt) = some out) :
    out.Nodup := by
  rcases hma : matchAll atd (sequences tt)
      (sortEntriesTagged (classifyEntries xmlRecords (nParams tt)))
      (dedupTopo tt typed_topo) ([], []) with - | st2
  · simp [topology_match, hma] at h
  · obtain ⟨uc2, out2⟩ := st2
    simp only [topology_match, hma] at h
    obtain rfl := Option.some.inj h
    have hwfe : ∀ p ∈ sortEntriesTagged (classifyEntries xmlRecords (nParams tt)),
        p.2.schema = (identify_schema p.2.attrib (nParams tt)).1 :=
      fun p hp => classifyEntries_wf (sortEntriesTagged_mem hp)
    obtain ⟨hmapeq, hnd⟩ := matchAll_nodup_inv (seqs_length tt) hwfe
      (dedupTopo tt typed_topo) [] [] rfl List.nodup_nil hma
    have hinj : Function.Injective (List.map (some : String → Option String)) :=
      List.map_injective_iff.mpr (fun a b hab => Option.some.inj hab)
    have h1 : (uc2.map (List.map some)).Nodup := hnd.map hinj
    rw [hmapeq] at h1
    exact List.Nodup.of_map _ h1

theorem spec_c5_unique_emission_witness : ([exRecClassC] : List AttribDict).Nodup :=
  spec_c5_unique_emission exAtdShared [["A", "A"], ["A", "B"]] [exRecClassC]
    TopoType.Bond [exRecClassC] rfl

/-- C6 counterexample: with the structure containing only type X, and the
document defining X (class CX, overrides Y) and Y (class CY), the loop
reports Y in an informational note even though Y is resolved to class CY in
the final map — refuting the claim that an override-referenced identifier
that is eventually resolved to a class produces no note. -/
theorem spec_c6_counterexample :
    resolveLoop exXmlOverride [("X", "")] [] =
      some ([("X", "CX"), ("Y", "CY")], ["Y"]) ∧
    dictLookup [("X", "CX"), ("Y", "CY")] "Y" = some "CY" :=
  ⟨rfl, rfl⟩

/-- C6 amended: an identifier is reported in an informational note if and
only if it enters the map through an overrides reference, i.e. it is a key
of the final map that was not among the structure's initial type keys —
regardless of whether it is later resolved to a class. -/
theorem spec_c6_amended_note_iff_discovered (xmlTypes : List AttribDict)
    (atd0 final : AttribDict) (notes : List String)
    (h : resolveLoop xmlTypes atd0 [] = some (final, notes)) (k : String) :
    k ∈ notes ↔ (dictMem final k = true ∧ dictMem atd0 k = false) := by
  obtain ⟨-, hnotes⟩ := resolveLoopAux_notes _ atd0 [] final notes h
  rw [hnotes k]
  simp

theorem spec_c6_amended_note_iff_discovered_witness :
    "Y" ∈ ["Y"] ↔ (dictMem [("X", "CX"), ("Y", "CY")] "Y" = true ∧
      dictMem [("X", "")] "Y" = false) :=
  spec_c6_amended_note_iff_discovered exXmlOverride [("X", "")]
    [("X", "CX"), ("Y", "CY")] ["Y"] rfl "Y"

/-- C7 counterexample: with an unparsable input document and a non-Structure
molecule argument, `forcefield_trim` raises the parse error, not the
documented ValueError — refuting the unconditional "raises ValueError if
typed_molecule is not a Parmed Structure". -/
theorem spec_c7_counterexample :
    forcefield_trim (some exBlankEmpty) none TypedMoleculeArg.other =
      Except.error TrimError.parseError ∧
    (Except.error TrimError.parseError : Except TrimError BlankDoc) ≠
      Except.error TrimError.valueError :=
  ⟨rfl, fun h => TrimError.noConfusion (Except.error.inj h)⟩

/-- C7 amended: `forcefield_trim` raises ValueError exactly when both XML
documents parse and `typed_molecule` is not a Parmed Structure; in that case
the error is raised before any matching — whatever the document contents,
nothing is processed and no output document is produced. -/
theorem spec_c7_amended_valueerror_iff :
    (∀ (blank : Option BlankDoc) (input_xml : Option XmlDoc) (m : TypedMoleculeArg),
      forcefield_trim blank input_xml m = Except.error TrimError.valueError ↔
        (blank.isSome = true ∧ input_xml.isSome = true ∧
          m = TypedMoleculeArg.other)) ∧
    (∀ (bd : BlankDoc) (xd : XmlDoc),
      forcefield_trim (some bd) (some xd) TypedMoleculeArg.other =
        Except.error TrimError.valueError) := by
  constructor
  · intro blank input_xml m
    cases blank with
    | none => simp [forcefield_trim]
    | some bd =>
      cases input_xml with
      | none => simp [forcefield_trim]
      | some xd =>
        cases m with
        | other => simp [forcefield_trim]
        | pstruct s =>
          rcases htb : trimBody s xd bd with - | outd <;>
            simp [forcefield_trim, htb]
  · intro bd xd
    rfl

/-- C8 counterexample: a Bond candidate record missing its `type2` attribute
is classified without any failure (schema [type1, type2], weight 0); the
lookup failure occurs only later, at matching time — refuting "the failure
propagates at the point of schema classification". -/
theorem spec_c8_counterexample :
    identify_schema [("type1", "opls_1")] 2 = (["type1", "type2"], 0) ∧
    matchAux [("opls_1", "C"), ("opls_2", "C")] [("type1", "opls_1")]
      (identify_schema [("type1", "opls_1")] 2).1 ["opls_1", "opls_2"] 0 = none :=
  ⟨rfl, rfl⟩

/-- C8 amended: schema classification is total — for any record and arity it
returns a full schema of one entry per position, never failing; a record
missing the attribute named by one of its schema positions produces the
lookup failure (KeyError) during the match test of `_topology_match`, when
the record's value at that position is read. -/
theorem spec_c8_lookup_at_matching (attrib atd : AttribDict) (n : Nat)
    (x : List String) (j : Nat) (sch : String)
    (hj : ((identify_schema attrib n).1)[j]? = some sch)
    (hjx : j < x.length)
    (hmiss : dictLookup attrib sch = none) :
    (identify_schema attrib n).1.length = n ∧
    matchAux atd attrib (identify_schema attrib n).1 x 0 = none := by
  refine ⟨identify_schema_length attrib n, ?_⟩
  rcases hm : matchAux atd attrib (identify_schema attrib n).1 x 0 with - | r
  · rfl
  · exfalso
    have hsome : (matchAux atd attrib (identify_schema attrib n).1 x 0).isSome = true := by
      rw [hm]
      rfl
    obtain ⟨h1, -⟩ := matchAux_isSome_iff.mp hsome
    obtain ⟨sch2, hsch2, hlk⟩ := h1 j hjx
    rw [Nat.zero_add, hj] at hsch2
    obtain rfl := Option.some.inj hsch2
    rw [hmiss] at hlk
    exact absurd hlk (by simp)

theorem spec_c8_lookup_at_matching_witness :
    (identify_schema [("type1", "opls_1")] 2).1.length = 2 ∧
    matchAux [("opls_1", "C"), ("opls_2", "C")] [("type1", "opls_1")]
      (identify_schema [("type1", "opls_1")] 2).1 ["opls_1", "opls_2"] 0 = none :=
  spec_c8_lookup_at_matching [("type1", "opls_1")]
    [("opls_1", "C"), ("opls_2", "C")] 2 ["opls_1", "opls_2"] 1 "type2"
    rfl (by decide) rfl

/-- C9: applying the symmetry-aware deduplication a second time to its own
output returns the output unchanged, and pointwise symmetry-equivalent
inputs (the same occurrences written in different symmetric orders) yield
pointwise symmetry-equivalent outputs — the same canonical set of
equivalence classes, in the same order. -/
theorem spec_c9_dedup_idempotent (tt : TopoType) (l l2 : List (List String))
    (hl : ∀ x ∈ l, x.length = nParams tt)
    (hrel : List.Forall₂ (EquivUnder (sequences tt)) l l2) :
    dedupTopo tt (dedupTopo tt l) = dedupTopo tt l ∧
    List.Forall₂ (EquivUnder (sequences tt)) (dedupTopo tt l) (dedupTopo tt l2) := by
  constructor
  · exact dedupTopoAux_idem (sequences tt) (dedupTopo tt l) []
      (dedupTopoAux_pairwise (sequences tt) l [] List.Pairwise.nil)
  · exact dedupTopoAux_forall2 tt hrel [] [] hl
      (fun a ha => absurd ha (List.not_mem_nil a)) List.Forall₂.nil

theorem spec_c9_dedup_idempotent_witness :
    dedupTopo TopoType.Bond (dedupTopo TopoType.Bond [["A", "B"]]) =
      dedupTopo TopoType.Bond [["A", "B"]] ∧
    List.Forall₂ (EquivUnder (sequences TopoType.Bond))
      (dedupTopo TopoType.Bond [["A", "B"]])
      (dedupTopo TopoType.Bond [["B", "A"]]) :=
  spec_c9_dedup_idempotent TopoType.Bond [["A", "B"]] [["B", "A"]] (by decide)
    (List.forall₂_cons.mpr ⟨by decide, List.Forall₂.nil⟩)

/-- C10: `forcefield_trim` parses the blank template and the input document
before validating `typed_molecule`: an unparsable input (or template) raises
the parse error for every molecule argument, including non-Structures, and
the documented ValueError is observable only when both documents parsed. -/
theorem spec_c10_parse_before_validate :
    (∀ (blank : Option BlankDoc) (m : TypedMoleculeArg),
      forcefield_trim blank none m = Except.error TrimError.parseError) ∧
    (∀ (input_xml : Option XmlDoc) (m : TypedMoleculeArg),
      forcefield_trim none input_xml m = Except.error TrimError.parseError) ∧
    (∀ (blank : Option BlankDoc) (input_xml : Option XmlDoc) (m : TypedMoleculeArg),
      forcefield_trim blank input_xml m = Except.error TrimError.valueError →
        blank.isSome = true ∧ input_xml.isSome = true) := by
  refine ⟨?_, ?_, ?_⟩
  · intro blank m
    cases blank <;> rfl
  · intro input_xml m
    rfl
  · intro blank input_xml m h
    cases blank with
    | none => simp [forcefield_trim] at h
    | some bd =>
      cases input_xml with
      | none => simp [forcefield_trim] at h
      | some xd => exact ⟨rfl, rfl⟩

theorem spec_c10_parse_before_validate_witness :
    (some exBlankEmpty).isSome = true ∧ (some exXmlEmpty).isSome = true :=
  spec_c10_parse_before_validate.2.2 (some exBlankEmpty) (some exXmlEmpty)
    TypedMoleculeArg.other rfl
